import Mathlib

/-!
Verification of the navigation and behaviour-tree core of CitySimulator-python.

The definitions below are a shallow embedding of the Python source:
`src/util.py` (Rect, Stack, Heap, direction helpers), `src/constants.py`
(Direction), `src/world.py` (tile grid queries) and `src/ai.py`
(NavigationGraph, BehaviourTree and the movement tasks).  Python integers are
modelled as `Int`, tile coordinates as `Int × Int`, and fallible code returns
`Except`/`Option`.  Loops without a structural termination measure take a fuel
parameter; exhausting fuel yields the distinguished value `PyErr.fuelOut`
(an artifact of the model, not a behaviour of the source).  Wherever the source
relies on the iteration order of a Python `set` (which is unspecified), the
model fixes the deterministic order in which the elements were produced; this
is noted at each such definition.
-/

namespace CitySim

/-- Tile or pixel coordinate, a pair of Python integers. -/
abbrev Pos := Int × Int

/-- Blocktype enum from `world.py` (`class BlockType`).  Only the numeric
values used by the navigation code are named here. -/
abbrev BlockType := Nat

def BlockType.GRASS : BlockType := 1
def BlockType.ROAD : BlockType := 3
def BlockType.PAVEMENT : BlockType := 4
def BlockType.SAND : BlockType := 5

/-- Offsets of `util.SURROUNDING_OFFSETS`, indexed by
`Direction.NORTH = 0, WEST = 1, SOUTH = 2, EAST = 3`. -/
def SURROUNDING_OFFSETS : List Pos := [(0, -1), (-1, 0), (0, 1), (1, 0)]

/-- Direction values (`constants.Direction.VALUES`). -/
def Direction.VALUES : List Nat := [0, 1, 2, 3]

/-- Translation of `constants.Direction.is_negative`. -/
def Direction.isNegative (d : Nat) : Bool := d = 0 || d = 1

/-- Translation of `constants.Direction.is_horizontal`. -/
def Direction.isHorizontal (d : Nat) : Bool := d = 3 || d = 1

/-- Translation of `util.add_direction` (with the default step of 1 inlined
by callers passing `delta`). -/
def addDirection (position : Pos) (direction : Nat) (delta : Int) : Pos :=
  let off := SURROUNDING_OFFSETS.getD direction (0, 0)
  (position.1 + off.1 * delta, position.2 + off.2 * delta)

/-- Translation of `util.distance_sqrd`.  The source's `util.distance` is
`math.sqrt` of this value; since the square root is strictly monotone on
nonnegative reals, every comparison of `util.distance` values coincides with
the comparison of the squared distances, which is what the model uses. -/
def distanceSqrd (p1 p2 : Pos) : Int :=
  (p1.1 - p2.1) ^ 2 + (p1.2 - p2.2) ^ 2

/-- Translation of `util.compare`. -/
def pyCompare (a b : Int) : Int :=
  if a = b then 0 else if a < b then -1 else 1

/-- Translation of `util.find_difference` in its `absolute=True` form:
the sorted absolute componentwise difference. -/
def findDifferenceAbs (p1 p2 : Pos) : List Int :=
  let dx := (p1.1 - p2.1).natAbs
  let dy := (p1.2 - p2.2).natAbs
  if dx ≤ dy then [(dx : Int), (dy : Int)] else [(dy : Int), (dx : Int)]

/-- Translation of `constants.Direction.get_direction_between`: the index into
`SURROUNDING_OFFSETS` of the unit step from `p1` toward `p2` along the axis
with the larger absolute offset (`None` when the points coincide). -/
def getDirectionBetween (p1 p2 : Pos) : Option Nat :=
  let dx := p2.1 - p1.1
  let dy := p2.2 - p1.2
  let dir : Pos :=
    if dx.natAbs > dy.natAbs then (if dx < 0 then -1 else 1, 0)
    else (0, if dy = 0 then 0 else if dy < 0 then -1 else 1)
  if dir = (0, 0) then none
  else SURROUNDING_OFFSETS.indexOf dir

/-- Tile grid of `world.World` as consumed by `NavigationGraph`:
`tile_width`/`tile_height` bounds and the terrain blocktype of every tile.
`terrain` is total; out-of-range values are never consulted because every
grid read in the navigation code is guarded by `is_in_range` (reads that the
source lets escape to `IndexError` are modelled as failed checks at the call
sites that catch them). -/
structure World where
  tileWidth : Nat
  tileHeight : Nat
  terrain : Int → Int → BlockType

/-- Translation of `World.is_in_range`. -/
def World.isInRange (w : World) (x y : Int) : Bool :=
  0 ≤ x && x < (w.tileWidth : Int) && 0 ≤ y && y < (w.tileHeight : Int)

/-- Result alphabet of `NavigationGraph._valid` (the source returns the
sentinel integers `OUT_OF_RANGE = 100`, `WRONG_BLOCK_TYPE = 101` or `True`,
compared against `1`/`100`/`101` by callers). -/
inductive VRes where
  | outOfRange
  | wrongType
  | ok
deriving DecidableEq, Repr

/-- Translation of `NavigationGraph._valid`: range check first, then an
optional blocktype check. -/
def validPos (w : World) (pos : Pos) (blocktype : Option BlockType) : VRes :=
  if ¬ w.isInRange pos.1 pos.2 then .outOfRange
  else match blocktype with
    | none => .ok
    | some bt => if w.terrain pos.1 pos.2 ≠ bt then .wrongType else .ok

/-- Axis-aligned rectangle (`util.Rect`) as used with integer tile
coordinates by the navigation code. -/
structure PyRect where
  x : Int
  y : Int
  w : Int
  h : Int
deriving DecidableEq, Repr

/-- Translation of `Rect.__setattr__` for the `width` attribute: a negative
width is normalised by shifting `x` and negating. -/
def PyRect.setW (r : PyRect) (v : Int) : PyRect :=
  if v < 0 then { r with x := r.x + v, w := -v } else { r with w := v }

/-- Translation of `Rect.__setattr__` for the `height` attribute. -/
def PyRect.setH (r : PyRect) (v : Int) : PyRect :=
  if v < 0 then { r with y := r.y + v, h := -v } else { r with h := v }

/-- Translation of `Rect.expand`: adjust width/height by `delta` along the
axis of `d`, and shift the origin for the negative directions. -/
def PyRect.expand (r : PyRect) (d : Nat) (delta : Int) : PyRect :=
  let r1 := if Direction.isHorizontal d then r.setW (r.w + delta)
            else r.setH (r.h + delta)
  if Direction.isNegative d then
    (if Direction.isHorizontal d then { r1 with x := r1.x - delta }
     else { r1 with y := r1.y - delta })
  else r1

/-- Translation of `Rect.position`. -/
def PyRect.position (r : PyRect) : Pos := (r.x, r.y)

/-- Translation of `Rect.size`. -/
def PyRect.size (r : PyRect) : Pos := (r.w, r.h)

/-- Translation of `Rect.translate`. -/
def PyRect.translate (r : PyRect) (xy : Pos) : PyRect :=
  { r with x := r.x + xy.1, y := r.y + xy.2 }

/-- Translation of `Rect.__nonzero__` (`as_tuple() != (0, 0, 0, 0)`). -/
def PyRect.nonzero (r : PyRect) : Bool :=
  ¬ (r.x = 0 ∧ r.y = 0 ∧ r.w = 0 ∧ r.h = 0)

/-- Coordinates yielded by `World.iterate_rectangle` over `r`, in the source's
iteration order (`x` outer, `y` inner); empty when a dimension is not
positive. -/
def rectCoords (r : PyRect) : List Pos :=
  (List.range r.w.toNat).flatMap fun (i : Nat) =>
    (List.range r.h.toNat).map fun (j : Nat) => (r.x + (i : Int), r.y + (j : Int))

/-- Membership of a tile in a rectangle, the arithmetic form of
`rectCoords`. -/
def inRect (p : Pos) (r : PyRect) : Prop :=
  r.x ≤ p.1 ∧ p.1 < r.x + r.w ∧ r.y ≤ p.2 ∧ p.2 < r.y + r.h

instance (p : Pos) (r : PyRect) : Decidable (inRect p r) := by
  unfold inRect; infer_instance

/-- Translation of `check_rect` inside `NavigationGraph._max_expansion`:
true iff the rectangle yields at least one tile and every yielded tile passes
`_valid` for the target blocktype.  A rectangle that strays outside the grid
fails in the source either through `_valid` returning `OUT_OF_RANGE` or
through an `IndexError` caught by `check_rect`; both collapse to `false`
here. -/
def checkRect (w : World) (blocktype : Option BlockType) (r : PyRect) : Bool :=
  !(rectCoords r).isEmpty &&
    (rectCoords r).all fun p => validPos w p blocktype = .ok

/-- Flags of still-active expansion directions
(`directions = [True for _ in Direction.VALUES]`). -/
abbrev Dirs := Nat → Bool

/-- Body of one direction attempt inside `_max_expansion`: expand by one,
keep the expansion if `check_rect` passes (optionally halting through `func`),
otherwise revert it and retire the direction.  Returns `.inr` on an early
`func` halt. -/
def expandAttempt (w : World) (blocktype : Option BlockType)
    (func : Option (PyRect → Bool)) (d : Nat) (rect : PyRect) (dirs : Dirs) :
    (PyRect × Dirs) ⊕ PyRect :=
  let grown := rect.expand d 1
  if ¬ checkRect w blocktype grown then
    .inl (grown.expand d (-1), fun i => if i = d then false else dirs i)
  else match func with
    | some f => if f grown then .inr grown else .inl (grown, dirs)
    | none => .inl (grown, dirs)

/-- One pass of the `while True` loop of `_max_expansion` over the directions
that are still active.  The source filters with a lazy generator, but since an
attempt at direction `d` only ever clears the flag of `d` itself, testing each
flag at its own turn is equivalent. -/
def expansionPass (w : World) (blocktype : Option BlockType)
    (func : Option (PyRect → Bool)) :
    List Nat → PyRect → Dirs → (PyRect × Dirs) ⊕ PyRect
  | [], rect, dirs => .inl (rect, dirs)
  | d :: rest, rect, dirs =>
    if dirs d then
      match expandAttempt w blocktype func d rect dirs with
      | .inl (rect2, dirs2) => expansionPass w blocktype func rest rect2 dirs2
      | .inr halted => .inr halted
    else expansionPass w blocktype func rest rect dirs

/-- Driver loop of `_max_expansion` with fuel: when no direction is active the
pass body never runs (`all_expired`) and the rectangle is returned. -/
def maxExpansionLoop (w : World) (blocktype : Option BlockType)
    (func : Option (PyRect → Bool)) :
    Nat → PyRect → Dirs → Option PyRect
  | 0, _, _ => none
  | fuel + 1, rect, dirs =>
    if Direction.VALUES.all fun d => !(dirs d) then some rect
    else match expansionPass w blocktype func Direction.VALUES rect dirs with
      | .inl (rect2, dirs2) => maxExpansionLoop w blocktype func fuel rect2 dirs2
      | .inr halted => some halted

/-- Translation of `NavigationGraph._max_expansion`, starting from the 1×1
rectangle at `tile_pos` with all four directions active. -/
def maxExpansion (w : World) (tilePos : Pos) (blocktype : Option BlockType)
    (func : Option (PyRect → Bool)) (fuel : Nat) : Option PyRect :=
  maxExpansionLoop w blocktype func fuel ⟨tilePos.1, tilePos.2, 1, 1⟩ (fun _ => true)

lemma PyRect.ext {a b : PyRect} (h1 : a.x = b.x) (h2 : a.y = b.y)
    (h3 : a.w = b.w) (h4 : a.h = b.h) : a = b := by
  cases a; cases b; simp_all

lemma mem_rectCoords {p : Pos} {r : PyRect} : p ∈ rectCoords r ↔ inRect p r := by
  obtain ⟨px, py⟩ := p
  constructor
  · intro hmem
    obtain ⟨i, hi, hin⟩ := List.mem_flatMap.mp hmem
    obtain ⟨j, hj, hp⟩ := List.mem_map.mp hin
    rw [List.mem_range] at hi hj
    obtain ⟨h1, h2⟩ := Prod.mk.injEq .. ▸ hp
    refine ⟨?_, ?_, ?_, ?_⟩ <;> simp only [] <;> omega
  · rintro ⟨h1, h2, h3, h4⟩
    refine List.mem_flatMap.mpr ⟨(px - r.x).toNat, List.mem_range.mpr (by omega), ?_⟩
    refine List.mem_map.mpr ⟨(py - r.y).toNat, List.mem_range.mpr (by omega), ?_⟩
    simp only [Prod.mk.injEq]
    omega

lemma rectCoords_ne_nil {r : PyRect} (hw : 1 ≤ r.w) (hh : 1 ≤ r.h) :
    ¬ (rectCoords r).isEmpty := by
  have : (r.x, r.y) ∈ rectCoords r := mem_rectCoords.mpr (by constructor <;> omega)
  cases h : rectCoords r with
  | nil => rw [h] at this; cases this
  | cons a l => simp [h]

/-- Unfolded form of a one-tile expansion northwards
(the `Rect.__setattr__` negative-size normalisation never fires since the
height stays positive). -/
lemma expand_zero (r : PyRect) (hh : 0 ≤ r.h) :
    r.expand 0 1 = ⟨r.x, r.y - 1, r.w, r.h + 1⟩ := by
  have h1 : ¬ (r.h + 1 < 0) := by omega
  simp only [PyRect.expand, Direction.isHorizontal, Direction.isNegative,
    PyRect.setH]
  norm_num
  first
    | (intro h2; omega)
    | (rw [if_neg h1]; exact ⟨rfl, rfl, rfl, rfl⟩)
    | rfl

/-- Unfolded form of a one-tile expansion westwards. -/
lemma expand_one (r : PyRect) (hw : 0 ≤ r.w) :
    r.expand 1 1 = ⟨r.x - 1, r.y, r.w + 1, r.h⟩ := by
  have h1 : ¬ (r.w + 1 < 0) := by omega
  simp only [PyRect.expand, Direction.isHorizontal, Direction.isNegative,
    PyRect.setW]
  norm_num
  first
    | (intro h2; omega)
    | (rw [if_neg h1]; exact ⟨rfl, rfl, rfl, rfl⟩)
    | rfl

/-- Unfolded form of a one-tile expansion southwards. -/
lemma expand_two (r : PyRect) (hh : 0 ≤ r.h) :
    r.expand 2 1 = ⟨r.x, r.y, r.w, r.h + 1⟩ := by
  have h1 : ¬ (r.h + 1 < 0) := by omega
  simp only [PyRect.expand, Direction.isHorizontal, Direction.isNegative,
    PyRect.setH]
  norm_num
  first
    | (intro h2; omega)
    | (rw [if_neg h1]; exact ⟨rfl, rfl, rfl, rfl⟩)
    | rfl

/-- Unfolded form of a one-tile expansion eastwards. -/
lemma expand_three (r : PyRect) (hw : 0 ≤ r.w) :
    r.expand 3 1 = ⟨r.x, r.y, r.w + 1, r.h⟩ := by
  have h1 : ¬ (r.w + 1 < 0) := by omega
  simp only [PyRect.expand, Direction.isHorizontal, Direction.isNegative,
    PyRect.setW]
  norm_num
  first
    | (intro h2; omega)
    | (rw [if_neg h1]; exact ⟨rfl, rfl, rfl, rfl⟩)
    | rfl

/-- Reverting a successful expansion restores the rectangle exactly
(`"Expanding by a negative delta in the same direction reverses this
operation"`). -/
lemma expand_revert (r : PyRect) (d : Nat) (hd : d < 4)
    (hw : 1 ≤ r.w) (hh : 1 ≤ r.h) : (r.expand d 1).expand d (-1) = r := by
  interval_cases d
  · rw [expand_zero r (by omega)]
    simp only [PyRect.expand, Direction.isHorizontal, Direction.isNegative,
      PyRect.setH]
    norm_num
    first
      | (intro h2; omega)
      | (split <;> first | omega | (simp <;> omega))
  · rw [expand_one r (by omega)]
    simp only [PyRect.expand, Direction.isHorizontal, Direction.isNegative,
      PyRect.setW]
    norm_num
    first
      | (intro h2; omega)
      | (split <;> first | omega | (simp <;> omega))
  · rw [expand_two r (by omega)]
    simp only [PyRect.expand, Direction.isHorizontal, Direction.isNegative,
      PyRect.setH]
    norm_num
    first
      | (intro h2; omega)
      | (split <;> first | omega | (simp <;> omega))
  · rw [expand_three r (by omega)]
    simp only [PyRect.expand, Direction.isHorizontal, Direction.isNegative,
      PyRect.setW]
    norm_num
    first
      | (intro h2; omega)
      | (split <;> first | omega | (simp <;> omega))

/-- Closed form of the fields of a one-tile expansion. -/
lemma expand_fields (r : PyRect) (d : Nat) (hd : d < 4)
    (hw : 0 ≤ r.w) (hh : 0 ≤ r.h) :
    (r.expand d 1).x = r.x - (if d = 1 then 1 else 0) ∧
    (r.expand d 1).y = r.y - (if d = 0 then 1 else 0) ∧
    (r.expand d 1).w = r.w + (if d = 1 ∨ d = 3 then 1 else 0) ∧
    (r.expand d 1).h = r.h + (if d = 0 ∨ d = 2 then 1 else 0) := by
  interval_cases d
  · rw [expand_zero r hh]; norm_num
  · rw [expand_one r hw]; norm_num
  · rw [expand_two r hh]; norm_num
  · rw [expand_three r hw]; norm_num

/-- A one-tile expansion keeps both dimensions positive. -/
lemma expand_dims (r : PyRect) (d : Nat) (hd : d < 4)
    (hw : 1 ≤ r.w) (hh : 1 ≤ r.h) :
    1 ≤ (r.expand d 1).w ∧ 1 ≤ (r.expand d 1).h := by
  obtain ⟨_, _, h3, h4⟩ := expand_fields r d hd (by omega) (by omega)
  rw [h3, h4]
  split_ifs <;> omega

set_option maxHeartbeats 1000000 in
/-- Tiles covered by expanding in direction `d2` are still covered after the
rectangle has first grown by one tile in any direction `d`: the failed strip
of a retired direction stays inside the retried strip of the final
rectangle. -/
lemma expand_mono (r : PyRect) (d d2 : Nat) (hd : d < 4) (hd2 : d2 < 4)
    (hw : 1 ≤ r.w) (hh : 1 ≤ r.h) (p : Pos)
    (hp : inRect p (r.expand d2 1)) : inRect p ((r.expand d 1).expand d2 1) := by
  obtain ⟨g1, g2, g3, g4⟩ := expand_fields r d hd (by omega) (by omega)
  obtain ⟨f1, f2, f3, f4⟩ :=
    expand_fields (r.expand d 1) d2 hd2 (by rw [g3]; split_ifs <;> omega)
      (by rw [g4]; split_ifs <;> omega)
  obtain ⟨e1, e2, e3, e4⟩ := expand_fields r d2 hd2 (by omega) (by omega)
  unfold inRect at hp ⊢
  rw [e1, e2, e3, e4] at hp
  rw [f1, f2, f3, f4, g1, g2, g3, g4]
  split_ifs at hp ⊢ <;> omega

/-- A failed expansion direction: the rectangle grown one tile in direction
`d` covers a tile that fails the validity check. -/
def badExpand (w : World) (bt : Option BlockType) (r : PyRect) (d : Nat) : Prop :=
  ∃ p, inRect p (r.expand d 1) ∧ validPos w p bt ≠ .ok

/-- Invariant of the `_max_expansion` loop: the rectangle has positive
dimensions and every retired direction has a witness tile blocking its
expansion. -/
def ExpInv (w : World) (bt : Option BlockType) (r : PyRect) (dirs : Dirs) : Prop :=
  1 ≤ r.w ∧ 1 ≤ r.h ∧ ∀ d, d < 4 → dirs d = false → badExpand w bt r d

lemma exists_bad_of_checkRect_false {w : World} {bt : Option BlockType}
    {r : PyRect} (hw : 1 ≤ r.w) (hh : 1 ≤ r.h)
    (hc : checkRect w bt r = false) :
    ∃ p, inRect p r ∧ validPos w p bt ≠ .ok := by
  unfold checkRect at hc
  rcases Bool.and_eq_false_iff.mp hc with h | h
  · exact absurd (by simpa using h) (rectCoords_ne_nil hw hh)
  · obtain ⟨p, hp, hbad⟩ := List.all_eq_false.mp h
    exact ⟨p, mem_rectCoords.mp hp, by simpa using hbad⟩

lemma expandAttempt_none_inl (w : World) (bt : Option BlockType) (d : Nat)
    (r : PyRect) (dirs : Dirs) :
    ∃ r2 dirs2, expandAttempt w bt none d r dirs = .inl (r2, dirs2) := by
  by_cases hc : checkRect w bt (r.expand d 1)
  · refine ⟨r.expand d 1, dirs, ?_⟩
    simp [expandAttempt, hc]
  · refine ⟨(r.expand d 1).expand d (-1), fun i => if i = d then false else dirs i, ?_⟩
    simp [expandAttempt, hc]

lemma expandAttempt_preserves {w : World} {bt : Option BlockType} {d : Nat}
    {r r2 : PyRect} {dirs dirs2 : Dirs} (hd : d < 4) (hact : dirs d = true)
    (inv : ExpInv w bt r dirs)
    (hstep : expandAttempt w bt none d r dirs = .inl (r2, dirs2)) :
    ExpInv w bt r2 dirs2 := by
  obtain ⟨hw, hh, hbad⟩ := inv
  simp only [expandAttempt] at hstep
  by_cases hc : checkRect w bt (r.expand d 1)
  · rw [if_neg (by simp [hc])] at hstep
    simp only [Sum.inl.injEq, Prod.mk.injEq] at hstep
    obtain ⟨heq1, heq2⟩ := hstep
    subst heq1
    subst heq2
    obtain ⟨hw2, hh2⟩ := expand_dims r d hd hw hh
    refine ⟨hw2, hh2, fun d3 hd3 hflag => ?_⟩
    obtain ⟨p, hp, hbadp⟩ := hbad d3 hd3 hflag
    exact ⟨p, expand_mono r d d3 hd hd3 hw hh p hp, hbadp⟩
  · rw [if_pos (by simp [hc])] at hstep
    simp only [Sum.inl.injEq, Prod.mk.injEq] at hstep
    obtain ⟨heq1, heq2⟩ := hstep
    subst heq1
    subst heq2
    rw [expand_revert r d hd hw hh]
    refine ⟨hw, hh, fun d3 hd3 hflag => ?_⟩
    by_cases hdd : d3 = d
    · subst hdd
      obtain ⟨hw2, hh2⟩ := expand_dims r d3 hd3 hw hh
      exact exists_bad_of_checkRect_false hw2 hh2 (by simpa using hc)
    · exact hbad d3 hd3 (by simpa [hdd] using hflag)

lemma expansionPass_none_inl (w : World) (bt : Option BlockType)
    (L : List Nat) (r : PyRect) (dirs : Dirs) :
    ∃ r2 dirs2, expansionPass w bt none L r dirs = .inl (r2, dirs2) := by
  induction L generalizing r dirs with
  | nil => exact ⟨r, dirs, rfl⟩
  | cons d rest ih =>
    unfold expansionPass
    by_cases hact : dirs d
    · rw [if_pos hact]
      obtain ⟨ra, da, ha⟩ := expandAttempt_none_inl w bt d r dirs
      rw [ha]
      exact ih ra da
    · rw [if_neg hact]
      exact ih r dirs

lemma expansionPass_preserves {w : World} {bt : Option BlockType}
    (L : List Nat) (hL : ∀ d ∈ L, d < 4) {r r2 : PyRect} {dirs dirs2 : Dirs}
    (inv : ExpInv w bt r dirs)
    (hstep : expansionPass w bt none L r dirs = .inl (r2, dirs2)) :
    ExpInv w bt r2 dirs2 := by
  induction L generalizing r dirs with
  | nil =>
    simp only [expansionPass, Sum.inl.injEq, Prod.mk.injEq] at hstep
    obtain ⟨h1, h2⟩ := hstep
    subst h1
    subst h2
    exact inv
  | cons d rest ih =>
    unfold expansionPass at hstep
    by_cases hact : dirs d
    · rw [if_pos hact] at hstep
      obtain ⟨ra, da, ha⟩ := expandAttempt_none_inl w bt d r dirs
      rw [ha] at hstep
      exact ih (fun x hx => hL x (List.mem_cons_of_mem d hx))
        (expandAttempt_preserves (hL d (List.mem_cons_self d rest)) hact inv ha) hstep
    · rw [if_neg hact] at hstep
      exact ih (fun x hx => hL x (List.mem_cons_of_mem d hx)) inv hstep

lemma maxExpansionLoop_maximal {w : World} {bt : Option BlockType}
    (fuel : Nat) {r out : PyRect} {dirs : Dirs} (inv : ExpInv w bt r dirs)
    (hrun : maxExpansionLoop w bt none fuel r dirs = some out) :
    ∀ d, d < 4 → badExpand w bt out d := by
  induction fuel generalizing r dirs with
  | zero => cases hrun
  | succ n ih =>
    unfold maxExpansionLoop at hrun
    by_cases hall : Direction.VALUES.all fun d => !(dirs d)
    · rw [if_pos hall] at hrun
      obtain rfl := Option.some.inj hrun
      intro d hd
      have hflag : dirs d = false := by
        have := List.all_eq_true.mp hall d
          (by interval_cases d <;> simp [Direction.VALUES])
        simpa using this
      exact inv.2.2 d hd hflag
    · rw [if_neg hall] at hrun
      obtain ⟨ra, da, ha⟩ := expansionPass_none_inl w bt Direction.VALUES r dirs
      rw [ha] at hrun
      exact ih (expansionPass_preserves Direction.VALUES
        (by intro x hx; simp [Direction.VALUES] at hx; omega) inv ha) hrun

/-- Concrete 2×1 all-pavement world used to exercise the expansion and
decomposition code on a small input. -/
def witnessWorld1 : World := ⟨2, 1, fun _ _ => BlockType.PAVEMENT⟩

lemma validPos_ne_ok_iff {w : World} {p : Pos} {bt : BlockType} :
    validPos w p (some bt) ≠ .ok ↔
      (¬ w.isInRange p.1 p.2 ∨ w.terrain p.1 p.2 ≠ bt) := by
  cases hr : w.isInRange p.1 p.2 with
  | false => simp [validPos, hr]
  | true =>
    by_cases h2 : w.terrain p.1 p.2 = bt <;> simp [validPos, hr, h2]

/-- C3: for every region returned by decomposition (`_max_expansion` run with
no early-termination callback), the region is maximal: expanding the
rectangle by one tile in any of the 4 directions would cover at least one
tile that is out of world range or of a different terrain type. -/
theorem maximal_region_is_maximal (w : World) (bt : BlockType) (seed : Pos)
    (fuel : Nat) (out : PyRect)
    (hrun : maxExpansion w seed (some bt) none fuel = some out) :
    ∀ d, d < 4 →
      ∃ p, inRect p (out.expand d 1) ∧
        (¬ w.isInRange p.1 p.2 ∨ w.terrain p.1 p.2 ≠ bt) := by
  intro d hd
  obtain ⟨p, hp, hbad⟩ := maxExpansionLoop_maximal fuel
    ⟨by norm_num, by norm_num, fun d2 _ hflag => by simp at hflag⟩ hrun d hd
  exact ⟨p, hp, validPos_ne_ok_iff.mp hbad⟩

/-- Witness for C3: on the 2×1 pavement world, expansion from `(0, 0)` returns
the 2×1 rectangle and every one-tile expansion of it hits an invalid tile. -/
theorem maximal_region_is_maximal_witness :
    maxExpansion witnessWorld1 (0, 0) (some BlockType.PAVEMENT) none 8 =
        some ⟨0, 0, 2, 1⟩ ∧
      ∀ d, d < 4 →
        ∃ p, inRect p ((⟨0, 0, 2, 1⟩ : PyRect).expand d 1) ∧
          (¬ witnessWorld1.isInRange p.1 p.2 ∨
            witnessWorld1.terrain p.1 p.2 ≠ BlockType.PAVEMENT) :=
  ⟨by decide, maximal_region_is_maximal witnessWorld1 BlockType.PAVEMENT (0, 0) 8
    ⟨0, 0, 2, 1⟩ (by decide)⟩

/-- Failure alphabet of the model: the first three correspond to Python
exceptions (`StandardError("Heap is full")`, `TypeError` from
`total_weight += None`, `KeyError` on a dict lookup); `fuelOut` is a model
artifact marking insufficient analysis fuel and corresponds to no Python
behaviour. -/
inductive PyErr where
  | heapFull
  | typeError
  | keyError
  | fuelOut
deriving DecidableEq, Repr

instance {e a : Type} [DecidableEq e] [DecidableEq a] : DecidableEq (Except e a) :=
  fun x y =>
    match x, y with
    | .error a1, .error a2 =>
      if h : a1 = a2 then isTrue (congrArg Except.error h)
      else isFalse fun hc => h (Except.error.inj hc)
    | .error _, .ok _ => isFalse fun hc => Except.noConfusion hc
    | .ok _, .error _ => isFalse fun hc => Except.noConfusion hc
    | .ok a1, .ok a2 =>
      if h : a1 = a2 then isTrue (congrArg Except.ok h)
      else isFalse fun hc => h (Except.ok.inj hc)

lemma inRect_expand_superset (r : PyRect) (d : Nat) (hd : d < 4)
    (hw : 0 ≤ r.w) (hh : 0 ≤ r.h) (p : Pos) (hp : inRect p r) :
    inRect p (r.expand d 1) := by
  obtain ⟨g1, g2, g3, g4⟩ := expand_fields r d hd hw hh
  unfold inRect at hp ⊢
  rw [g1, g2, g3, g4]
  split_ifs <;> omega

lemma dims_of_checkRect {w : World} {bt : Option BlockType} {r : PyRect}
    (hc : checkRect w bt r = true) : 1 ≤ r.w ∧ 1 ≤ r.h := by
  unfold checkRect at hc
  obtain ⟨h1, _⟩ := Bool.and_eq_true_iff.mp hc
  cases hcoords : rectCoords r with
  | nil => rw [hcoords] at h1; simp at h1
  | cons a l =>
    have : a ∈ rectCoords r := by rw [hcoords]; exact List.mem_cons_self a l
    have := mem_rectCoords.mp this
    unfold inRect at this
    omega

lemma valid_of_checkRect {w : World} {bt : Option BlockType} {r : PyRect}
    (hc : checkRect w bt r = true) {p : Pos} (hp : inRect p r) :
    validPos w p bt = .ok := by
  unfold checkRect at hc
  obtain ⟨_, h2⟩ := Bool.and_eq_true_iff.mp hc
  have := List.all_eq_true.mp h2 p (mem_rectCoords.mpr hp)
  simpa using this

/-- Generic invariant preservation through the expansion machinery: any
property of the rectangle that survives a checked one-tile growth survives
the whole `_max_expansion` run (the failing branch restores the rectangle
exactly). -/
lemma expandAttempt_inv {w : World} {bt : Option BlockType} (Q : PyRect → Prop)
    (hQ : ∀ rect d, d < 4 → 1 ≤ rect.w → 1 ≤ rect.h → Q rect →
      checkRect w bt (rect.expand d 1) = true → Q (rect.expand d 1))
    {d : Nat} {r r2 : PyRect} {dirs dirs2 : Dirs} (hd : d < 4)
    (hwh : 1 ≤ r.w ∧ 1 ≤ r.h) (hold : Q r)
    (hstep : expandAttempt w bt none d r dirs = .inl (r2, dirs2)) :
    (1 ≤ r2.w ∧ 1 ≤ r2.h) ∧ Q r2 := by
  simp only [expandAttempt] at hstep
  by_cases hc : checkRect w bt (r.expand d 1)
  · rw [if_neg (by simp [hc])] at hstep
    simp only [Sum.inl.injEq, Prod.mk.injEq] at hstep
    obtain ⟨heq1, heq2⟩ := hstep
    subst heq1
    exact ⟨expand_dims r d hd hwh.1 hwh.2, hQ r d hd hwh.1 hwh.2 hold hc⟩
  · rw [if_pos (by simp [hc])] at hstep
    simp only [Sum.inl.injEq, Prod.mk.injEq] at hstep
    obtain ⟨heq1, heq2⟩ := hstep
    subst heq1
    rw [expand_revert r d hd hwh.1 hwh.2]
    exact ⟨hwh, hold⟩

lemma expansionPass_inv {w : World} {bt : Option BlockType} (Q : PyRect → Prop)
    (hQ : ∀ rect d, d < 4 → 1 ≤ rect.w → 1 ≤ rect.h → Q rect →
      checkRect w bt (rect.expand d 1) = true → Q (rect.expand d 1))
    (L : List Nat) (hL : ∀ d ∈ L, d < 4) {r r2 : PyRect} {dirs dirs2 : Dirs}
    (hwh : 1 ≤ r.w ∧ 1 ≤ r.h) (hold : Q r)
    (hstep : expansionPass w bt none L r dirs = .inl (r2, dirs2)) :
    (1 ≤ r2.w ∧ 1 ≤ r2.h) ∧ Q r2 := by
  induction L generalizing r dirs with
  | nil =>
    simp only [expansionPass, Sum.inl.injEq, Prod.mk.injEq] at hstep
    obtain ⟨h1, h2⟩ := hstep
    subst h1
    exact ⟨hwh, hold⟩
  | cons d rest ih =>
    unfold expansionPass at hstep
    by_cases hact : dirs d
    · rw [if_pos hact] at hstep
      obtain ⟨ra, da, ha⟩ := expandAttempt_none_inl w bt d r dirs
      rw [ha] at hstep
      obtain ⟨hwh2, hq2⟩ := expandAttempt_inv Q hQ
        (hL d (List.mem_cons_self d rest)) hwh hold ha
      exact ih (fun x hx => hL x (List.mem_cons_of_mem d hx)) hwh2 hq2 hstep
    · rw [if_neg hact] at hstep
      exact ih (fun x hx => hL x (List.mem_cons_of_mem d hx)) hwh hold hstep

lemma maxExpansionLoop_inv {w : World} {bt : Option BlockType} (Q : PyRect → Prop)
    (hQ : ∀ rect d, d < 4 → 1 ≤ rect.w → 1 ≤ rect.h → Q rect →
      checkRect w bt (rect.expand d 1) = true → Q (rect.expand d 1))
    (fuel : Nat) {r out : PyRect} {dirs : Dirs}
    (hwh : 1 ≤ r.w ∧ 1 ≤ r.h) (hold : Q r)
    (hrun : maxExpansionLoop w bt none fuel r dirs = some out) :
    (1 ≤ out.w ∧ 1 ≤ out.h) ∧ Q out := by
  induction fuel generalizing r dirs with
  | zero => cases hrun
  | succ n ih =>
    unfold maxExpansionLoop at hrun
    by_cases hall : Direction.VALUES.all fun d => !(dirs d)
    · rw [if_pos hall] at hrun
      obtain rfl := Option.some.inj hrun
      exact ⟨hwh, hold⟩
    · rw [if_neg hall] at hrun
      obtain ⟨ra, da, ha⟩ := expansionPass_none_inl w bt Direction.VALUES r dirs
      rw [ha] at hrun
      obtain ⟨hwh2, hq2⟩ := expansionPass_inv Q hQ Direction.VALUES
        (by intro x hx; simp [Direction.VALUES] at hx; omega) hwh hold ha
      exact ih hwh2 hq2 hrun

/-- The seed tile stays inside the rectangle through the whole expansion. -/
lemma maxExpansion_contains_seed {w : World} {bt : Option BlockType}
    {seed : Pos} {fuel : Nat} {out : PyRect}
    (hrun : maxExpansion w seed bt none fuel = some out) : inRect seed out := by
  have h := maxExpansionLoop_inv (fun r => inRect seed r)
    (fun rect d hd hw hh hq _ => inRect_expand_superset rect d hd
      (by omega) (by omega) seed hq)
    fuel ⟨by norm_num, by norm_num⟩
    (by unfold inRect; constructor <;> simp <;> omega) hrun
  exact h.2

/-- If the seed tile itself is valid, the whole returned rectangle is valid.
(The source never checks the seed: an invalid seed yields an invalid 1×1
rectangle, which is why `generate_graph` only seeds from tiles of the target
blocktype.) -/
lemma maxExpansion_valid {w : World} {bt : Option BlockType}
    {seed : Pos} {fuel : Nat} {out : PyRect}
    (hseed : validPos w seed bt = .ok)
    (hrun : maxExpansion w seed bt none fuel = some out) :
    ∀ p, inRect p out → validPos w p bt = .ok := by
  have hinit : checkRect w bt ⟨seed.1, seed.2, 1, 1⟩ = true := by
    unfold checkRect
    have hne : ¬ (rectCoords (⟨seed.1, seed.2, 1, 1⟩ : PyRect)).isEmpty :=
      rectCoords_ne_nil (by norm_num) (by norm_num)
    refine Bool.and_eq_true_iff.mpr ⟨by simpa using hne, ?_⟩
    refine List.all_eq_true.mpr fun p hp => ?_
    have := mem_rectCoords.mp hp
    unfold inRect at this
    have hpeq : p = seed := by
      obtain ⟨p1, p2⟩ := p
      obtain ⟨s1, s2⟩ := seed
      simp only at this
      simp only [Prod.mk.injEq]
      omega
    subst hpeq
    simpa using hseed
  have h := maxExpansionLoop_inv (fun r => checkRect w bt r = true)
    (fun rect d hd hw hh hq hc => hc)
    fuel ⟨by norm_num, by norm_num⟩ hinit hrun
  exact fun p hp => valid_of_checkRect h.2 hp

/-- Positions collected at the start of `generate_graph`
(`set((x, y) for x, y, b in iterate_blocks() if b.blocktype == blocktype)`),
kept in the deterministic `iterate_blocks` order (`x` outer, `y` inner);
the source stores them in a `set` whose iteration order is unspecified, and
`next(iter(positions))` is modelled as taking the head of this list. -/
def positionsList (w : World) (bt : BlockType) : List Pos :=
  ((List.range w.tileWidth).flatMap fun (x : Nat) =>
    (List.range w.tileHeight).map fun (y : Nat) => ((x : Int), (y : Int))).filter
      fun p => w.terrain p.1 p.2 == bt

/-- Worklist loop of `generate_graph`: pop a remaining position, expand it to
a maximal rectangle, drop every position covered by that rectangle, record
the rectangle. -/
def decomposeAllAux (w : World) (bt : BlockType) (innerFuel : Nat) :
    Nat → List Pos → Except PyErr (List PyRect)
  | _, [] => .ok []
  | 0, _ :: _ => .error .fuelOut
  | outerFuel + 1, p :: rest =>
    match maxExpansion w p (some bt) none innerFuel with
    | none => .error .fuelOut
    | some r =>
      (decomposeAllAux w bt innerFuel outerFuel
        ((p :: rest).filter fun q => !(decide (inRect q r)))).map
        fun rs => r :: rs

/-- Rectangle-collection phase of `NavigationGraph.generate_graph` (the
`decompose_all` of the specification). -/
def decomposeAll (w : World) (bt : BlockType) (fuel : Nat) :
    Except PyErr (List PyRect) :=
  decomposeAllAux w bt fuel (positionsList w bt).length (positionsList w bt)

lemma mem_positionsList {w : World} {bt : BlockType} {p : Pos} :
    p ∈ positionsList w bt ↔
      (w.isInRange p.1 p.2 ∧ w.terrain p.1 p.2 = bt) := by
  obtain ⟨px, py⟩ := p
  unfold positionsList World.isInRange
  rw [List.mem_filter]
  constructor
  · rintro ⟨hmem, hbt⟩
    obtain ⟨x, hx, hin⟩ := List.mem_flatMap.mp hmem
    obtain ⟨y, hy, hp⟩ := List.mem_map.mp hin
    rw [List.mem_range] at hx hy
    obtain ⟨h1, h2⟩ := Prod.mk.injEq .. ▸ hp
    constructor
    · simp only []
      subst h1
      subst h2
      simp
      omega
    · simpa using hbt
  · rintro ⟨hin, hbt⟩
    simp only [] at hin
    refine ⟨List.mem_flatMap.mpr ⟨px.toNat, List.mem_range.mpr (by simp at hin; omega),
      List.mem_map.mpr ⟨py.toNat, List.mem_range.mpr (by simp at hin; omega), ?_⟩⟩, by simpa using hbt⟩
    simp only [Prod.mk.injEq]
    simp at hin
    omega

lemma validPos_ok_iff {w : World} {p : Pos} {bt : BlockType} :
    validPos w p (some bt) = .ok ↔
      (w.isInRange p.1 p.2 ∧ w.terrain p.1 p.2 = bt) := by
  cases hr : w.isInRange p.1 p.2 with
  | false => simp [validPos, hr]
  | true =>
    by_cases h2 : w.terrain p.1 p.2 = bt <;> simp [validPos, hr, h2]

lemma decomposeAllAux_covers {w : World} {bt : BlockType} {innerFuel : Nat}
    (outerFuel : Nat) (L : List Pos) (rects : List PyRect)
    (hsub : ∀ p ∈ L, w.isInRange p.1 p.2 ∧ w.terrain p.1 p.2 = bt)
    (hrun : decomposeAllAux w bt innerFuel outerFuel L = .ok rects) :
    (∀ p ∈ L, ∃ r ∈ rects, inRect p r) ∧
      (∀ r ∈ rects, ∀ p, inRect p r →
        w.isInRange p.1 p.2 ∧ w.terrain p.1 p.2 = bt) := by
  induction outerFuel generalizing L rects with
  | zero =>
    cases L with
    | nil =>
      obtain rfl : ([] : List PyRect) = rects := by
        simpa [decomposeAllAux] using hrun
      simp
    | cons p rest => simp [decomposeAllAux] at hrun
  | succ n ih =>
    cases L with
    | nil =>
      obtain rfl : ([] : List PyRect) = rects := by
        simpa [decomposeAllAux] using hrun
      simp
    | cons p rest =>
      unfold decomposeAllAux at hrun
      cases hexp : maxExpansion w p (some bt) none innerFuel with
      | none => rw [hexp] at hrun; cases hrun
      | some r =>
        rw [hexp] at hrun
        dsimp only [] at hrun
        cases haux : decomposeAllAux w bt innerFuel n
            ((p :: rest).filter fun q => !(decide (inRect q r))) with
        | error e => rw [haux] at hrun; cases hrun
        | ok rs =>
          rw [haux] at hrun
          obtain rfl : r :: rs = rects := by
            simpa [Except.map] using hrun
          have hvr : ∀ q, inRect q r →
              w.isInRange q.1 q.2 ∧ w.terrain q.1 q.2 = bt := by
            intro q hq
            have hseed : validPos w p (some bt) = .ok :=
              validPos_ok_iff.mpr (hsub p (List.mem_cons_self p rest))
            exact validPos_ok_iff.mp (maxExpansion_valid hseed hexp q hq)
          have hsub2 : ∀ q ∈ (p :: rest).filter
              (fun q => !(decide (inRect q r))),
              w.isInRange q.1 q.2 ∧ w.terrain q.1 q.2 = bt :=
            fun q hq => hsub q (List.mem_of_mem_filter hq)
          obtain ⟨ihcov, ihval⟩ := ih _ rs hsub2 haux
          constructor
          · intro q hq
            by_cases hin : inRect q r
            · exact ⟨r, List.mem_cons_self r rs, hin⟩
            · have hqf : q ∈ (p :: rest).filter
                  (fun q => !(decide (inRect q r))) :=
                List.mem_filter.mpr ⟨hq, by simpa using hin⟩
              obtain ⟨r2, hr2, hqr2⟩ := ihcov q hqf
              exact ⟨r2, List.mem_cons_of_mem r hr2, hqr2⟩
          · intro r2 hr2 q hq
            rcases List.mem_cons.mp hr2 with rfl | hr2
            · exact hvr q hq
            · exact ihval r2 hr2 q hq

/-- Amended C2 (union half): the regions collected by `generate_graph` cover
exactly the set of in-range tiles of the target terrain type. -/
theorem decompose_all_covers (w : World) (bt : BlockType) (fuel : Nat)
    (rects : List PyRect) (hrun : decomposeAll w bt fuel = .ok rects) :
    ∀ p : Pos, (∃ r ∈ rects, inRect p r) ↔
      (w.isInRange p.1 p.2 ∧ w.terrain p.1 p.2 = bt) := by
  obtain ⟨hcov, hval⟩ := decomposeAllAux_covers (positionsList w bt).length
    (positionsList w bt) rects
    (fun p hp => mem_positionsList.mp hp) hrun
  intro p
  constructor
  · rintro ⟨r, hr, hpr⟩
    exact hval r hr p hpr
  · intro htarget
    exact hcov p (mem_positionsList.mpr htarget)

/-- Concrete 2×2 world whose pavement tiles form an L-shape:
`(1, 1)` is grass, the other three tiles are pavement. -/
def cexWorld2 : World :=
  ⟨2, 2, fun x y => if x = 1 ∧ y = 1 then BlockType.GRASS else BlockType.PAVEMENT⟩

/-- C2, counterexample: on the L-shaped pavement world the rectangle
collection returns two regions that both contain the tile `(0, 0)`, so the
returned regions overlap and are not a partition (later expansions are free
to re-cover tiles already claimed by earlier rectangles). -/
theorem decompose_all_not_partition :
    decomposeAll cexWorld2 BlockType.PAVEMENT 16 =
        .ok [⟨0, 0, 1, 2⟩, ⟨0, 0, 2, 1⟩] ∧
      inRect (0, 0) ⟨0, 0, 1, 2⟩ ∧ inRect (0, 0) ⟨0, 0, 2, 1⟩ ∧
      (⟨0, 0, 1, 2⟩ : PyRect) ≠ ⟨0, 0, 2, 1⟩ := by
  refine ⟨by decide, by decide, by decide, by decide⟩

/-- Witness for the amended C2 theorem at the L-shaped world. -/
theorem decompose_all_covers_witness :
    decomposeAll cexWorld2 BlockType.PAVEMENT 16 =
        .ok [⟨0, 0, 1, 2⟩, ⟨0, 0, 2, 1⟩] ∧
      ∀ p : Pos,
        (∃ r ∈ [(⟨0, 0, 1, 2⟩ : PyRect), ⟨0, 0, 2, 1⟩], inRect p r) ↔
          (cexWorld2.isInRange p.1 p.2 ∧
            cexWorld2.terrain p.1 p.2 = BlockType.PAVEMENT) :=
  ⟨by decide, decompose_all_covers cexWorld2 BlockType.PAVEMENT 16
    [⟨0, 0, 1, 2⟩, ⟨0, 0, 2, 1⟩] (by decide)⟩

/-- Array-backed heap of `util.Heap`: `_heap` is a `[None] * (size + 1)`
array modelled as a total function into `Option`, `_n` the next free 1-based
slot (starts at 1), `_max` the configured size. -/
structure PyHeap (A : Type) where
  arr : Nat → Option A
  n : Nat
  max : Nat

/-- Translation of `Heap.__init__(compare, size)`. -/
def PyHeap.mk0 (A : Type) (size : Nat) : PyHeap A :=
  ⟨fun _ => none, 1, size⟩

/-- Translation of `Heap.empty`. -/
def PyHeap.empty (h : PyHeap A) : Bool := h.n == 1

/-- Translation of `Heap._swap`. -/
def hswap (h : PyHeap A) (a b : Nat) : PyHeap A :=
  { h with arr := fun i => if i = a then h.arr b else if i = b then h.arr a
      else h.arr i }

/-- Translation of `Heap._compare` (comparator applied to the stored values).
The `none` case would be a Python crash inside the user comparator; the heap
operations below only ever compare occupied slots. -/
def hcmp (cmp : A → A → Int) (h : PyHeap A) (a b : Nat) : Int :=
  match h.arr a, h.arr b with
  | some x, some y => cmp x y
  | _, _ => 0

/-- Translation of `Heap._bubble_up`: swap upward while the entry compares
greater than its parent (the heap therefore keeps its largest entry at the
root).  The `i ≤ 1` guard is the source's `if i == 1: return` (the operation
is never invoked at index 0).  The fuel argument is a model artifact: callers
pass the start index, which bounds the depth of this strictly decreasing
recursion, so the zero-fuel branch is never reached at those call sites. -/
def bubbleUp (cmp : A → A → Int) : Nat → PyHeap A → Nat → PyHeap A
  | 0, h, _ => h
  | fuel + 1, h, i =>
    if i ≤ 1 then h
    else if hcmp cmp h i (i / 2) > 0 then
      bubbleUp cmp fuel (hswap h i (i / 2)) (i / 2)
    else h

/-- Translation of `Heap.add`: raises `StandardError("Heap is full")` when
`_n == _max`; note `_n` starts at 1, so a heap of configured size `s` refuses
its `s`-th element (and a size-1 heap refuses every element). -/
def PyHeap.add (cmp : A → A → Int) (h : PyHeap A) (x : A) :
    Except PyErr (PyHeap A) :=
  if h.n = h.max then .error .heapFull
  else
    let h1 : PyHeap A :=
      { h with arr := fun i => if i = h.n then some x else h.arr i }
    .ok { bubbleUp cmp h.n h1 h.n with n := h.n + 1 }

/-- Translation of `Heap._bubble_down`.  The fuel argument is a model
artifact: callers pass `h.n`, which strictly exceeds the recursion depth
(the index at least doubles each call), so the zero-fuel branch is never
reached at those call sites. -/
def bubbleDown (cmp : A → A → Int) : Nat → PyHeap A → Nat → PyHeap A
  | 0, h, _ => h
  | fuel + 1, h, i =>
    let l := 2 * i
    let r := 2 * i + 1
    if h.n ≤ l then h
    else if h.n ≤ r then
      (if hcmp cmp h i l < 0 then bubbleDown cmp fuel (hswap h i l) l else h)
    else
      if hcmp cmp h i l < 0 ∧ hcmp cmp h r l < 0 then
        bubbleDown cmp fuel (hswap h i l) l
      else if hcmp cmp h i r < 0 ∧ hcmp cmp h l r < 0 then
        bubbleDown cmp fuel (hswap h i r) r
      else h

/-- Translation of `Heap.pop`: decrement `_n`, swap the root with the last
occupied slot, read and clear that slot, and sift the root down. -/
def PyHeap.pop (cmp : A → A → Int) (h : PyHeap A) : Option A × PyHeap A :=
  let n1 := h.n - 1
  let h1 := hswap h 1 n1
  let value := h1.arr n1
  let h2 : PyHeap A :=
    { h1 with arr := fun i => if i = n1 then none else h1.arr i, n := n1 }
  (value, bubbleDown cmp h2.n h2 1)

/-- A sequence of `Heap.add` operations (the only heap mutations `_find`
performs before its first pop). -/
def addAll (cmp : A → A → Int) : List A → PyHeap A → Except PyErr (PyHeap A)
  | [], h => .ok h
  | x :: xs, h =>
    match PyHeap.add cmp h x with
    | .error e => .error e
    | .ok h2 => addAll cmp xs h2

/-- Membership among the occupied slots of the heap. -/
def heapMem (x : A) (h : PyHeap A) : Prop :=
  ∃ i, 1 ≤ i ∧ i < h.n ∧ h.arr i = some x

/-- Comparator of the frontier in `NavigationGraph._find`:
`lambda a, b: util.compare(heuristic(a), heuristic(b))` with
`heuristic = lambda n: util.distance(n, goal)`.  `util.distance` is the
square root of `util.distance_sqrd`; comparisons of the two agree
(`distance_compare_agrees` below), so the model compares squared
distances. -/
def frontierCmp (goal : Pos) : Pos → Pos → Int :=
  fun a b => pyCompare (distanceSqrd a goal) (distanceSqrd b goal)

/-- Justification that ordering by `util.distance` (a square root) and by
`util.distance_sqrd` coincide: the square root is strictly monotone and
injective on the nonnegative reals. -/
lemma distance_compare_agrees (p q g : Pos) :
    (Real.sqrt ((distanceSqrd p g : Int) : Real) <
        Real.sqrt ((distanceSqrd q g : Int) : Real) ↔
      distanceSqrd p g < distanceSqrd q g) ∧
    (Real.sqrt ((distanceSqrd p g : Int) : Real) =
        Real.sqrt ((distanceSqrd q g : Int) : Real) ↔
      distanceSqrd p g = distanceSqrd q g) := by
  have hp : (0 : Real) ≤ ((distanceSqrd p g : Int) : Real) := by
    unfold distanceSqrd
    push_cast
    positivity
  have hq : (0 : Real) ≤ ((distanceSqrd q g : Int) : Real) := by
    unfold distanceSqrd
    push_cast
    positivity
  constructor
  · rw [Real.sqrt_lt_sqrt_iff hp]
    exact_mod_cast Iff.rfl
  · rw [Real.sqrt_inj hp hq]
    exact_mod_cast Iff.rfl


/-- Key of the entry stored at a heap slot (0 for an empty slot; the
invariants below only inspect occupied slots). -/
def heapKey (k : A → Int) (h : PyHeap A) (i : Nat) : Int :=
  match h.arr i with
  | some x => k x
  | none => 0

/-- Comparator induced by a key function, the shape of every comparator the
source passes to `Heap` (`util.compare` of a numeric heuristic). -/
def kcmp (k : A → Int) : A → A → Int := fun a b => pyCompare (k a) (k b)

/-- Occupied slots below an explicit bound. -/
def memN (y : A) (h : PyHeap A) (N : Nat) : Prop :=
  ∃ j, 1 ≤ j ∧ j < N ∧ h.arr j = some y

/-- All slots in `[1, N)` are occupied. -/
def heapSomeN (h : PyHeap A) (N : Nat) : Prop :=
  ∀ j, 1 ≤ j → j < N → (h.arr j).isSome

/-- The max-heap ordering on slots `[1, N)`: every entry is bounded by its
parent. -/
def heapPropN (k : A → Int) (h : PyHeap A) (N : Nat) : Prop :=
  ∀ j, 2 ≤ j → j < N → heapKey k h j ≤ heapKey k h (j / 2)

lemma heapKey_hswap (k : A → Int) (h : PyHeap A) (a b i : Nat) :
    heapKey k (hswap h a b) i =
      if i = a then heapKey k h b
      else if i = b then heapKey k h a else heapKey k h i := by
  unfold heapKey hswap
  dsimp only
  split_ifs <;> rfl

lemma heapSomeN_hswap {h : PyHeap A} {N a b : Nat} (ha1 : 1 ≤ a) (haN : a < N)
    (hb1 : 1 ≤ b) (hbN : b < N) (hs : heapSomeN h N) :
    heapSomeN (hswap h a b) N := by
  intro j hj1 hjN
  unfold hswap
  dsimp only
  split_ifs
  · exact hs b hb1 hbN
  · exact hs a ha1 haN
  · exact hs j hj1 hjN

lemma memN_hswap {h : PyHeap A} {N a b : Nat} (ha1 : 1 ≤ a) (haN : a < N)
    (hb1 : 1 ≤ b) (hbN : b < N) (y : A) :
    memN y (hswap h a b) N ↔ memN y h N := by
  unfold memN hswap
  dsimp only
  constructor
  · rintro ⟨j, hj1, hjN, hj⟩
    by_cases hja : j = a
    · subst hja
      rw [if_pos rfl] at hj
      exact ⟨b, hb1, hbN, hj⟩
    · rw [if_neg hja] at hj
      by_cases hjb : j = b
      · subst hjb
        rw [if_pos rfl] at hj
        exact ⟨a, ha1, haN, hj⟩
      · rw [if_neg hjb] at hj
        exact ⟨j, hj1, hjN, hj⟩
  · rintro ⟨j, hj1, hjN, hj⟩
    by_cases hja : j = a
    · refine ⟨b, hb1, hbN, ?_⟩
      by_cases hba : b = a
      · rw [if_pos hba, hba, ← hja]
        exact hj
      · rw [if_neg hba, if_pos rfl, ← hja]
        exact hj
    · by_cases hjb : j = b
      · refine ⟨a, ha1, haN, ?_⟩
        rw [if_pos rfl, ← hjb]
        exact hj
      · exact ⟨j, hj1, hjN, by rw [if_neg hja, if_neg hjb]; exact hj⟩

lemma hcmp_kcmp_pos_iff {k : A → Int} {h : PyHeap A} {a b : Nat}
    (ha : (h.arr a).isSome) (hb : (h.arr b).isSome) :
    hcmp (kcmp k) h a b > 0 ↔ heapKey k h b < heapKey k h a := by
  obtain ⟨x, hx⟩ := Option.isSome_iff_exists.mp ha
  obtain ⟨y, hy⟩ := Option.isSome_iff_exists.mp hb
  unfold hcmp kcmp pyCompare heapKey
  rw [hx, hy]
  dsimp only
  split_ifs <;> omega

/-- Sift-up invariant: the heap ordering may only be broken on the edge into
the hole `i`, and the children of the hole fit below the parent of the hole
(so that the entry moving down into the hole keeps dominating them). -/
def AH (k : A → Int) (N : Nat) (h : PyHeap A) (i : Nat) : Prop :=
  1 ≤ i ∧ i < N ∧
  (∀ j, 2 ≤ j → j < N → j ≠ i → heapKey k h j ≤ heapKey k h (j / 2)) ∧
  (2 ≤ i → ∀ c, 2 ≤ c → c < N → c / 2 = i → heapKey k h c ≤ heapKey k h (i / 2))

lemma bubbleUp_main (k : A → Int) (N : Nat) (fuel i : Nat) (h : PyHeap A)
    (hfuel : i ≤ fuel) (hsome : heapSomeN h N) (hAH : AH k N h i) :
    heapPropN k (bubbleUp (kcmp k) fuel h i) N ∧
      heapSomeN (bubbleUp (kcmp k) fuel h i) N ∧
      (∀ y, memN y (bubbleUp (kcmp k) fuel h i) N ↔ memN y h N) ∧
      (bubbleUp (kcmp k) fuel h i).n = h.n := by
  induction fuel generalizing h i with
  | zero =>
    exact absurd hAH.1 (by omega)
  | succ fuel ih =>
    obtain ⟨hi1, hiN, hedges, hchild⟩ := hAH
    rw [bubbleUp]
    by_cases hle : i ≤ 1
    · rw [if_pos hle]
      exact ⟨fun j hj2 hjN => hedges j hj2 hjN (by omega), hsome,
        fun y => Iff.rfl, rfl⟩
    · rw [if_neg hle]
      have hi2 : 2 ≤ i := by omega
      have hp1 : 1 ≤ i / 2 := by omega
      have hpi : i / 2 < i := by omega
      have hpN : i / 2 < N := by omega
      by_cases hcomp : hcmp (kcmp k) h i (i / 2) > 0
      · rw [if_pos hcomp]
        have hkip : heapKey k h (i / 2) < heapKey k h i :=
          (hcmp_kcmp_pos_iff (hsome i hi1 hiN) (hsome (i / 2) hp1 hpN)).mp hcomp
        have hsome2 : heapSomeN (hswap h i (i / 2)) N :=
          heapSomeN_hswap hi1 hiN hp1 hpN hsome
        have hAH2 : AH k N (hswap h i (i / 2)) (i / 2) := by
          refine ⟨hp1, hpN, ?_, ?_⟩
          · intro j hj2 hjN hjp
            rw [heapKey_hswap, heapKey_hswap]
            by_cases hji : j = i
            · subst hji
              rw [if_pos rfl, if_neg (by omega), if_pos rfl]
              omega
            · rw [if_neg hji, if_neg hjp]
              by_cases hj2i : j / 2 = i
              · rw [if_pos hj2i]
                have := hchild hi2 j hj2 hjN hj2i
                omega
              · rw [if_neg hj2i]
                by_cases hj2p : j / 2 = i / 2
                · rw [if_pos hj2p]
                  have := hedges j hj2 hjN hji
                  rw [hj2p] at this
                  omega
                · rw [if_neg hj2p]
                  exact hedges j hj2 hjN hji
          · intro hp2 c hc2 hcN hcp
            rw [heapKey_hswap, heapKey_hswap]
            have hppi : i / 2 / 2 ≠ i := by omega
            have hppp : i / 2 / 2 ≠ i / 2 := by omega
            rw [if_neg hppi, if_neg hppp]
            have hppbound : heapKey k h (i / 2) ≤ heapKey k h (i / 2 / 2) :=
              hedges (i / 2) hp2 hpN (by omega)
            by_cases hci : c = i
            · subst hci
              rw [if_pos rfl]
              exact hppbound
            · rw [if_neg hci, if_neg (by omega : c ≠ i / 2)]
              have := hedges c hc2 hcN hci
              rw [hcp] at this
              omega
        obtain ⟨c1, c2, c3, c4⟩ := ih (h := hswap h i (i / 2)) (i := i / 2)
          (by omega) hsome2 hAH2
        exact ⟨c1, c2,
          fun y => (c3 y).trans (memN_hswap hi1 hiN hp1 hpN y), c4⟩
      · rw [if_neg hcomp]
        refine ⟨?_, hsome, fun y => Iff.rfl, rfl⟩
        intro j hj2 hjN
        by_cases hji : j = i
        · subst hji
          have hnlt : ¬ (heapKey k h (j / 2) < heapKey k h j) := fun hlt =>
            hcomp ((hcmp_kcmp_pos_iff (hsome j (by omega) (by omega))
              (hsome (j / 2) (by omega) (by omega))).mpr hlt)
          omega
        · exact hedges j hj2 hjN hji

lemma heapPropN_le_root (k : A → Int) (h : PyHeap A) (N : Nat)
    (hp : heapPropN k h N) :
    ∀ i, 1 ≤ i → i < N → heapKey k h i ≤ heapKey k h 1 := by
  intro i
  induction i using Nat.strong_induction_on with
  | _ i ih =>
    intro h1 hN
    by_cases hi : i = 1
    · rw [hi]
    · have h2 : 2 ≤ i := by omega
      have hstep := hp i h2 hN
      have hrec := ih (i / 2) (by omega) (by omega) (by omega)
      omega

lemma heapKey_of_ne {k : A → Int} {g h : PyHeap A} {j : Nat}
    (harr : g.arr j = h.arr j) : heapKey k g j = heapKey k h j := by
  unfold heapKey
  rw [harr]

lemma add_step (k : A → Int) {h h2 : PyHeap A} {x : A}
    (hs : heapSomeN h h.n) (hp : heapPropN k h h.n) (hn1 : 1 ≤ h.n)
    (hadd : PyHeap.add (kcmp k) h x = .ok h2) :
    heapSomeN h2 h2.n ∧ heapPropN k h2 h2.n ∧ h2.n = h.n + 1 ∧
      (∀ y, memN y h2 h2.n ↔ (memN y h h.n ∨ y = x)) := by
  unfold PyHeap.add at hadd
  by_cases hfull : h.n = h.max
  · rw [if_pos hfull] at hadd; cases hadd
  · rw [if_neg hfull] at hadd
    dsimp only at hadd
    obtain rfl := Except.ok.inj hadd
    have hsomeg : heapSomeN
        { h with arr := fun i => if i = h.n then some x else h.arr i }
        (h.n + 1) := by
      intro j hj1 hjN
      dsimp only
      by_cases hjn : j = h.n
      · rw [if_pos hjn]; rfl
      · rw [if_neg hjn]
        exact hs j hj1 (by omega)
    have hAHg : AH k (h.n + 1)
        { h with arr := fun i => if i = h.n then some x else h.arr i } h.n := by
      refine ⟨hn1, by omega, ?_, ?_⟩
      · intro j hj2 hjN hjn
        have hjlt : j < h.n := by omega
        have e1 : ({ h with arr := fun i => if i = h.n then some x else h.arr i }
            : PyHeap A).arr j = h.arr j := by
          dsimp only
          rw [if_neg hjn]
        have e2 : ({ h with arr := fun i => if i = h.n then some x else h.arr i }
            : PyHeap A).arr (j / 2) = h.arr (j / 2) := by
          dsimp only
          rw [if_neg (by omega : ¬ j / 2 = h.n)]
        rw [heapKey_of_ne e1, heapKey_of_ne e2]
        exact hp j hj2 hjlt
      · intro hn2 c hc2 hcN hcp
        omega
    obtain ⟨c1, c2, c3, c4⟩ := bubbleUp_main k (h.n + 1) h.n h.n
      { h with arr := fun i => if i = h.n then some x else h.arr i }
      (le_refl h.n) hsomeg hAHg
    refine ⟨c2, c1, rfl, fun y => ?_⟩
    have hmem := c3 y
    constructor
    · intro hy
      rcases hmem.mp hy with ⟨j, hj1, hjN, hj⟩
      dsimp only at hj
      by_cases hjn : j = h.n
      · rw [if_pos hjn] at hj
        exact Or.inr (Option.some.inj hj).symm
      · rw [if_neg hjn] at hj
        exact Or.inl ⟨j, hj1, by omega, hj⟩
    · intro hy
      apply hmem.mpr
      rcases hy with ⟨j, hj1, hjN, hj⟩ | rfl
      · exact ⟨j, hj1, by omega, by dsimp only; rw [if_neg (by omega)]; exact hj⟩
      · exact ⟨h.n, hn1, by omega, by dsimp only; rw [if_pos rfl]⟩

lemma addAll_inv (k : A → Int) (xs : List A) (h hend : PyHeap A)
    (hs : heapSomeN h h.n) (hp : heapPropN k h h.n) (hn1 : 1 ≤ h.n)
    (hrun : addAll (kcmp k) xs h = .ok hend) :
    heapSomeN hend hend.n ∧ heapPropN k hend hend.n ∧ 1 ≤ hend.n := by
  induction xs generalizing h with
  | nil =>
    obtain rfl : h = hend := by simpa [addAll] using hrun
    exact ⟨hs, hp, hn1⟩
  | cons x xs ih =>
    unfold addAll at hrun
    cases hadd : PyHeap.add (kcmp k) h x with
    | error e => rw [hadd] at hrun; cases hrun
    | ok h2 =>
      rw [hadd] at hrun
      obtain ⟨d1, d2, d3, _⟩ := add_step k hs hp hn1 hadd
      exact ih h2 d1 d2 (by omega) hrun

lemma pop_fst_eq_root (cmp : A → A → Int) (h : PyHeap A) :
    (PyHeap.pop cmp h).1 = h.arr 1 := by
  unfold PyHeap.pop hswap
  dsimp only
  by_cases hn : h.n - 1 = 1
  · rw [if_pos hn, hn]
  · rw [if_neg hn, if_pos rfl]

lemma pop_root_max (k : A → Int) (h : PyHeap A)
    (hs : heapSomeN h h.n) (hp : heapPropN k h h.n) (hn2 : 2 ≤ h.n) :
    ∃ v, (PyHeap.pop (kcmp k) h).1 = some v ∧
      ∀ y, memN y h h.n → k y ≤ k v := by
  obtain ⟨v, hv⟩ := Option.isSome_iff_exists.mp (hs 1 (by omega) (by omega))
  refine ⟨v, by rw [pop_fst_eq_root, hv], ?_⟩
  rintro y ⟨i, hi1, hiN, hi⟩
  have h1 := heapPropN_le_root k h h.n hp i hi1 hiN
  unfold heapKey at h1
  rw [hi, hv] at h1
  exact h1

/-- C4 counterexample setup: the frontier after `add((1,0))` and `add((2,0))`
with goal `(0,0)` (graph size 3, so no overflow). -/
def c4CexHeap : PyHeap Pos :=
  match addAll (frontierCmp (0, 0)) [(1, 0), (2, 0)] (PyHeap.mk0 Pos 3) with
  | .ok h => h
  | .error _ => PyHeap.mk0 Pos 3

/-- C4, counterexample: the claim says a popped node's Euclidean distance to
the goal is minimal among the stored nodes.  With goal `(0,0)` and stored
nodes `(1,0)` (distance 1) and `(2,0)` (distance 2) the pop returns `(2,0)`
while the strictly nearer `(1,0)` is still stored: `Heap._bubble_up` moves
the entry that compares greater toward the root, so the frontier is a
max-heap and pops the farthest node, not the nearest. -/
theorem frontier_pop_not_nearest :
    addAll (frontierCmp (0, 0)) [(1, 0), (2, 0)] (PyHeap.mk0 Pos 3) =
        .ok c4CexHeap ∧
      (PyHeap.pop (frontierCmp (0, 0)) c4CexHeap).1 = some (2, 0) ∧
      heapMem (1, 0) c4CexHeap ∧
      distanceSqrd (1, 0) (0, 0) < distanceSqrd (2, 0) (0, 0) :=
  ⟨by rfl, by rfl, ⟨2, by omega, by decide, by rfl⟩, by decide⟩

/-- C4 amended: the frontier priority queue of RouteSearch is a max-heap on
straight-line distance to the goal — for every frontier state built by a
sequence of `add` operations, a pop returns a stored node whose Euclidean
distance to the goal is maximal (worst-first), not minimal, among all nodes
currently stored. -/
theorem frontier_pop_farthest (goal : Pos) (size : Nat) (xs : List Pos)
    (h : PyHeap Pos)
    (hbuild : addAll (frontierCmp goal) xs (PyHeap.mk0 Pos size) = .ok h)
    (hne : 2 ≤ h.n) :
    ∃ v, (PyHeap.pop (frontierCmp goal) h).1 = some v ∧
      ∀ y, heapMem y h → distanceSqrd y goal ≤ distanceSqrd v goal := by
  have h0s : heapSomeN (PyHeap.mk0 Pos size) (PyHeap.mk0 Pos size).n := by
    intro j hj1 hjN
    exfalso
    simp [PyHeap.mk0] at hjN
    omega
  have h0p : heapPropN (fun p => distanceSqrd p goal) (PyHeap.mk0 Pos size)
      (PyHeap.mk0 Pos size).n := by
    intro j hj2 hjN
    exfalso
    simp [PyHeap.mk0] at hjN
    omega
  obtain ⟨ds, dp, dn⟩ := addAll_inv (fun p => distanceSqrd p goal) xs
    (PyHeap.mk0 Pos size) h h0s h0p (by simp [PyHeap.mk0]) hbuild
  obtain ⟨v, hv, hmax⟩ := pop_root_max (fun p => distanceSqrd p goal) h ds dp hne
  exact ⟨v, hv, fun y hy => hmax y hy⟩

/-- Concrete frontier for the C4 witness: goal `(0,0)`, nodes `(3,0)` and
`(1,1)` added into a size-4 heap. -/
def c4WitnessHeap : PyHeap Pos :=
  match addAll (frontierCmp (0, 0)) [(3, 0), (1, 1)] (PyHeap.mk0 Pos 4) with
  | .ok h => h
  | .error _ => PyHeap.mk0 Pos 4

/-- Witness for the amended C4 theorem at a concrete frontier. -/
theorem frontier_pop_farthest_witness :
    ∃ v, (PyHeap.pop (frontierCmp (0, 0)) c4WitnessHeap).1 = some v ∧
      ∀ y, heapMem y c4WitnessHeap →
        distanceSqrd y (0, 0) ≤ distanceSqrd v (0, 0) :=
  frontier_pop_farthest (0, 0) 4 [(3, 0), (1, 1)] c4WitnessHeap (by rfl) (by decide)

/-- Waypoint graph of `NavigationGraph`: a dict from node to its edge set,
modelled as an association list from node to an (insertion-ordered,
duplicate-free) edge list. -/
abbrev Graph := List (Pos × List (Pos × Int))

/-- Dict lookup `self.graph[n]`. -/
def graphLookup (g : Graph) (n : Pos) : Option (List (Pos × Int)) :=
  (g.find? fun e => e.1 == n).map fun e => e.2

/-- Membership test `(x, y) in self.graph`. -/
def graphContains (g : Graph) (n : Pos) : Bool :=
  (g.find? fun e => e.1 == n).isSome

/-- Node derivation of `generate_graph`: for each rectangle register its
origin corner, then translate it along its longer axis by the dimension
difference and register the new origin.  The source accumulates into a
Python `set`; the model deduplicates in first-insertion order (the set of
nodes produced is identical). -/
def registerNodes (rects : List PyRect) : List Pos :=
  rects.foldl
    (fun ns r =>
      let ns1 := if r.position ∈ ns then ns else ns ++ [r.position]
      let horizontal := r.w > r.h
      let shift : Pos := if horizontal then (r.w - r.h, 0) else (0, r.h - r.w)
      let r2 := r.translate shift
      if r2.position ∈ ns1 then ns1 else ns1 ++ [r2.position])
    []

/-- Outcome of the per-tile weight computation inside the ray-cast loop of
`_connect_nodes`: stop the ray, crash (`total_weight += None`), or
accumulate a weight. -/
inductive StepW where
  | halt
  | err
  | val (v : Int)
deriving DecidableEq, Repr

/-- Weight computation for one ray step (`weight = None; primary_check = ...`
down to `total_weight += weight`): out-of-range stops the ray; with a truthy
secondary map a wrong-typed tile either takes the first matching secondary
weight or stops the ray; a primary tile weighs 1; a wrong-typed tile with an
empty or absent secondary map leaves `weight` as `None` and the accumulation
raises a `TypeError`. -/
def stepWeight (w : World) (primary : BlockType)
    (secondary : List (BlockType × Int)) (pos : Pos) : StepW :=
  let pc := validPos w pos (some primary)
  if pc = .outOfRange then .halt
  else if secondary ≠ [] ∧ pc = .wrongType then
    match secondary.find? fun bw => validPos w pos (some bw.1) = .ok with
    | none => .halt
    | some bw => .val bw.2
  else if pc = .ok then .val 1
  else .err

/-- Ray-cast loop of `_connect_nodes` for one node and one direction:
step, weigh, accumulate, and stop with an edge when another node's
coordinate is reached (`grid[pos[1]][pos[0]]`, modelled as membership in the
node set). -/
def raycast (w : World) (primary : BlockType)
    (secondary : List (BlockType × Int)) (nodes : List Pos) (d : Nat) :
    Nat → Pos → Int → Except PyErr (Option (Pos × Int))
  | 0, _, _ => .error .fuelOut
  | fuel + 1, pos0, total =>
    let pos := addDirection pos0 d 1
    match stepWeight w primary secondary pos with
    | .halt => .ok none
    | .err => .error .typeError
    | .val v =>
      if pos ∈ nodes then .ok (some (pos, total + v))
      else raycast w primary secondary nodes d fuel pos (total + v)

/-- Symmetric edge insertion `graph[n].add((other, total_weight))` (a set
add: appending only when the pair is not yet present). -/
def addEdge (g : Graph) (n : Pos) (e : Pos × Int) : Graph :=
  g.map fun entry =>
    if entry.1 = n then
      (entry.1, if e ∈ entry.2 then entry.2 else entry.2 ++ [e])
    else entry

/-- Directions loop of `_connect_nodes` for one node. -/
def connectDirs (w : World) (primary : BlockType)
    (secondary : List (BlockType × Int)) (allNodes : List Pos) (fuel : Nat)
    (n : Pos) : List Nat → Graph → Except PyErr Graph
  | [], g => .ok g
  | d :: ds, g =>
    match raycast w primary secondary allNodes d fuel n 0 with
    | .error e => .error e
    | .ok none => connectDirs w primary secondary allNodes fuel n ds g
    | .ok (some (other, tw)) =>
      connectDirs w primary secondary allNodes fuel n ds
        (addEdge (addEdge g n (other, tw)) other (n, tw))

/-- Node loop of `_connect_nodes`. -/
def connectLoop (w : World) (primary : BlockType)
    (secondary : List (BlockType × Int)) (allNodes : List Pos) (fuel : Nat) :
    List Pos → Graph → Except PyErr Graph
  | [], g => .ok g
  | n :: rest, g =>
    match connectDirs w primary secondary allNodes fuel n Direction.VALUES g with
    | .error e => .error e
    | .ok g2 => connectLoop w primary secondary allNodes fuel rest g2

/-- Translation of `NavigationGraph._connect_nodes`: initialise every node
with an empty edge set, then ray-cast from every node in every direction. -/
def connectNodes (w : World) (primary : BlockType)
    (secondary : List (BlockType × Int)) (nodes : List Pos) (fuel : Nat) :
    Except PyErr Graph :=
  connectLoop w primary secondary nodes fuel nodes (nodes.map fun n => (n, []))

/-- Concrete world for C10: a pavement tile at `(0, 0)` bordered east by
grass. -/
def c10World : World :=
  ⟨2, 1, fun x _ => if x = 0 then BlockType.PAVEMENT else BlockType.GRASS⟩

/-- C10, counterexample: with an empty secondary-weights map, the eastward
ray from node `(0, 0)` steps onto the in-range grass tile `(1, 0)`; neither
branch assigns a weight, so `total_weight += weight` runs with
`weight = None` and raises a `TypeError` instead of terminating the ray
quietly. -/
theorem raycast_empty_secondary_type_error :
    connectNodes c10World BlockType.PAVEMENT [] [(0, 0)] 8 =
      .error .typeError := by decide

lemma stepWeight_ne_err {w : World} {primary : BlockType}
    {secondary : List (BlockType × Int)} {pos : Pos}
    (hsec : secondary ≠ []) :
    stepWeight w primary secondary pos ≠ .err := by
  unfold stepWeight
  cases hpc : validPos w pos (some primary) with
  | outOfRange => simp
  | wrongType =>
    rw [if_neg (by simp), if_pos ⟨hsec, rfl⟩]
    cases secondary.find? fun bw => validPos w pos (some bw.1) = .ok <;> simp
  | ok =>
    rw [if_neg (by simp), if_neg (by simp), if_pos rfl]
    simp

lemma raycast_ne_typeError {w : World} {primary : BlockType}
    {secondary : List (BlockType × Int)} {nodes : List Pos} {d : Nat}
    (hsec : secondary ≠ []) (fuel : Nat) (pos0 : Pos) (total : Int) :
    raycast w primary secondary nodes d fuel pos0 total ≠
      .error .typeError := by
  induction fuel generalizing pos0 total with
  | zero => simp [raycast]
  | succ n ih =>
    unfold raycast
    cases hsw : stepWeight w primary secondary (addDirection pos0 d 1) with
    | halt => simp [hsw]
    | err => exact absurd hsw (stepWeight_ne_err hsec)
    | val v =>
      simp only [hsw]
      split
      · simp
      · exact ih (addDirection pos0 d 1) (total + v)

lemma connectDirs_ne_typeError {w : World} {primary : BlockType}
    {secondary : List (BlockType × Int)} {allNodes : List Pos} {fuel : Nat}
    {n : Pos} (hsec : secondary ≠ []) (ds : List Nat) (g : Graph) :
    connectDirs w primary secondary allNodes fuel n ds g ≠
      .error .typeError := by
  induction ds generalizing g with
  | nil => simp [connectDirs]
  | cons d rest ih =>
    unfold connectDirs
    cases hray : raycast w primary secondary allNodes d fuel n 0 with
    | error e =>
      cases e with
      | typeError => exact absurd hray (raycast_ne_typeError hsec fuel n 0)
      | heapFull => simp
      | keyError => simp
      | fuelOut => simp
    | ok o =>
      cases o with
      | none => exact ih g
      | some p =>
        obtain ⟨o1, o2⟩ := p
        exact ih (addEdge (addEdge g n (o1, o2)) o1 (n, o2))

/-- C10 amended: with a nonempty secondary-weights map the ray-cast of graph
construction never reaches the weight accumulation with an undefined weight
(a step onto a tile matching neither terrain terminates the ray with no edge
and no error); with an empty or absent map, a wrong-terrain in-range step
does reach the accumulation with `weight = None` and raises a `TypeError`
(see the counterexample). -/
theorem connect_nodes_no_type_error (w : World) (primary : BlockType)
    (secondary : List (BlockType × Int)) (hsec : secondary ≠ [])
    (nodes : List Pos) (fuel : Nat) :
    ∀ (work : List Pos) (g : Graph),
      connectLoop w primary secondary nodes fuel work g ≠
        .error .typeError := by
  intro work
  induction work with
  | nil => intro g; simp [connectLoop]
  | cons n rest ih =>
    intro g
    unfold connectLoop
    cases hdirs : connectDirs w primary secondary nodes fuel n
        Direction.VALUES g with
    | error e =>
      cases e with
      | typeError =>
        exact absurd hdirs (connectDirs_ne_typeError hsec Direction.VALUES g)
      | heapFull => simp
      | keyError => simp
      | fuelOut => simp
    | ok g2 => exact ih g2

/-- Witness for the amended C10 theorem: on the pavement/grass world with the
road secondary weight, graph construction raises no type error. -/
theorem connect_nodes_no_type_error_witness :
    connectLoop c10World BlockType.PAVEMENT [(BlockType.ROAD, 5)] [(0, 0)] 8
        [(0, 0)] [((0, 0), [])] ≠ .error .typeError :=
  connect_nodes_no_type_error c10World BlockType.PAVEMENT
    [(BlockType.ROAD, 5)] (by simp) [(0, 0)] 8 [(0, 0)] [((0, 0), [])]

/-- Association-list lookup used for the `came_from` and `costs` dicts of
`_find` (updates are modelled by consing, so the newest binding wins, exactly
like a dict overwrite). -/
def alookup {B : Type} (l : List (Pos × B)) (k : Pos) : Option B :=
  (l.find? fun e => e.1 == k).map fun e => e.2

/-- The `came_from` predecessor dict. -/
abbrev Trace := List (Pos × Pos)

/-- The `costs` dict. -/
abbrev Costs := List (Pos × Int)

/-- Neighbour loop of `_find`
(`for neighbour, weight in self.graph[current]`): relax, push improved
neighbours onto the frontier and record their predecessor. -/
def processNeighbors (goal current : Pos) :
    List (Pos × Int) → PyHeap Pos → Costs → Trace →
      Except PyErr (PyHeap Pos × Costs × Trace)
  | [], f, c, t => .ok (f, c, t)
  | (nb, wt) :: rest, f, c, t =>
    match alookup c current with
    | none => .error .keyError
    | some ccur =>
      let newCost := ccur + wt
      let better :=
        match alookup c nb with
        | none => true
        | some old => decide (newCost < old)
      if better then
        match PyHeap.add (frontierCmp goal) f nb with
        | .error e => .error e
        | .ok f2 =>
          processNeighbors goal current rest f2 ((nb, newCost) :: c)
            ((nb, current) :: t)
      else processNeighbors goal current rest f c t

/-- Main loop of `_find`: pop the frontier, stop at the goal, otherwise relax
the neighbours.  A pop of an occupied frontier always yields a value; the
`keyError` on a `none` pop is a model stand-in for the crash Python would
suffer in that unreachable state. -/
def findLoop (graph : Graph) (goal : Pos) :
    Nat → PyHeap Pos → Costs → Trace → Except PyErr (Option (Pos × Trace))
  | 0, _, _, _ => .error .fuelOut
  | fuel + 1, frontier, costs, trace =>
    if frontier.empty then .ok none
    else
      match PyHeap.pop (frontierCmp goal) frontier with
      | (none, _) => .error .keyError
      | (some current, frontier2) =>
        if current = goal then .ok (some (goal, trace))
        else
          match graphLookup graph current with
          | none => .error .keyError
          | some neighbors =>
            match processNeighbors goal current neighbors frontier2 costs trace with
            | .error e => .error e
            | .ok (f2, c2, t2) => findLoop graph goal fuel f2 c2 t2

/-- Translation of `NavigationGraph._find`: frontier sized by `len(graph)`,
seeded with the start node at cost 0 and an empty predecessor map. -/
def findA (graph : Graph) (goal start : Pos) (fuel : Nat) :
    Except PyErr (Option (Pos × Trace)) :=
  match PyHeap.add (frontierCmp goal) (PyHeap.mk0 Pos graph.length) start with
  | .error e => .error e
  | .ok f1 => findLoop graph goal fuel f1 [(start, 0)] []

/-- Backward walk over the predecessor map in `_find_path`
(`while node in trace: node = trace[node]; path.append(node)`); fuel runs
out exactly when the walk revisits a node, in which case the source loops
forever. -/
def traceWalk (trace : Trace) : Nat → Pos → Option (List Pos)
  | 0, _ => none
  | fuel + 1, node =>
    match alookup trace node with
    | none => some [node]
    | some v =>
      match traceWalk trace fuel v with
      | none => none
      | some l => some (node :: l)

/-- Translation of `NavigationGraph._find_path`: run the search, then walk
the predecessor map backward from the goal and reverse. -/
def findPath (graph : Graph) (start goal : Pos) (fuel : Nat) :
    Except PyErr (Option (List Pos)) :=
  match findA graph goal start fuel with
  | .error e => .error e
  | .ok none => .ok none
  | .ok (some (node, trace)) =>
    match traceWalk trace (trace.length + 1) node with
    | none => .error .fuelOut
    | some l => .ok (some l.reverse)

/-- Translation of `find_node` inside `_find_nearest_node`: the first
rectangle tile (in iteration order) that is a graph node. -/
def findNode (g : Graph) (r : PyRect) : Option Pos :=
  (rectCoords r).find? fun p => graphContains g p

/-- Translation of `NavigationGraph._find_nearest_node`: expand with the
node-scanning callback; when nothing could be expanded, retry without the
blocktype restriction and give up only if even that produces a falsy
rectangle. -/
def findNearestNode (w : World) (g : Graph) (tilePos : Pos)
    (bt : Option BlockType) (fuel : Nat) : Except PyErr (Option Pos) :=
  match maxExpansion w tilePos bt (some fun r => (findNode g r).isSome) fuel with
  | none => .error .fuelOut
  | some rect =>
    if rect.size = ((1 : Int), (1 : Int)) then
      match maxExpansion w tilePos none
          (some fun r => (findNode g r).isSome) fuel with
      | none => .error .fuelOut
      | some rect2 =>
        if ¬ rect2.nonzero then .ok none
        else .ok (findNode g rect2)
    else .ok (findNode g rect)

/-- Step loop of `NavigationGraph._find_direct_path`, accumulating the tiles
appended after the seed.  `get_direction_between` cannot return `None` while
`current ≠ dest`, so that branch is unreachable. -/
def directWalk (dest : Pos) : Nat → Pos → Option (List Pos)
  | 0, _ => none
  | fuel + 1, current =>
    if current = dest then some []
    else
      match getDirectionBetween current dest with
      | none => none
      | some d =>
        match directWalk dest fuel (addDirection current d 1) with
        | none => none
        | some l => some (addDirection current d 1 :: l)

/-- Translation of `NavigationGraph._find_direct_path`. -/
def findDirectPath (fuel : Nat) (src dest : Pos) : Option (List Pos) :=
  match directWalk dest fuel src with
  | none => none
  | some l => some (src :: l)

/-- Translation of `NavigationGraph.generate_graph`: decompose into
rectangles, derive nodes, connect them. -/
def generateGraph (w : World) (bt : BlockType)
    (secondary : List (BlockType × Int)) (fuel : Nat) : Except PyErr Graph :=
  match decomposeAll w bt fuel with
  | .error e => .error e
  | .ok rects => connectNodes w bt secondary (registerNodes rects) fuel

/-- Translation of `NavigationGraph.find_walking_path`: nearest nodes for
both endpoints (both are computed before the `None` check), the direct
prefix, the graph search, the direct suffix, and the concatenation with the
shared endpoints dropped.  The dead `show_path` debug block of the source
(guarded by a constant `False`) is omitted. -/
def findWalkingPath (w : World) (g : Graph) (src dest : Pos) (fuel : Nat) :
    Except PyErr (Option (List Pos)) :=
  match findNearestNode w g src (some BlockType.PAVEMENT) fuel with
  | .error e => .error e
  | .ok startOpt =>
    match findNearestNode w g dest (some BlockType.PAVEMENT) fuel with
    | .error e => .error e
    | .ok endOpt =>
      match startOpt, endOpt with
      | some startNode, some endNode =>
        (match findDirectPath fuel src startNode with
        | none => .error .fuelOut
        | some prefixPath =>
          match findPath g startNode endNode fuel with
          | .error e => .error e
          | .ok mainOpt =>
            match findDirectPath fuel endNode dest with
            | none => .error .fuelOut
            | some suffixPath =>
              match mainOpt with
              | none => .ok none
              | some mainPath =>
                if mainPath = [] ∨ prefixPath = [] ∨ suffixPath = [] then
                  .ok none
                else
                  .ok (some (prefixPath ++ mainPath.drop 1 ++ suffixPath.drop 1)))
      | _, _ => .ok none

/-- Adjacency of consecutive route tiles in the sense of the specification:
at most one tile step along one axis. -/
def stepAdjacent (p q : Pos) : Prop :=
  (p.1 - q.1).natAbs + (p.2 - q.2).natAbs ≤ 1

instance (p q : Pos) : Decidable (stepAdjacent p q) := by
  unfold stepAdjacent; infer_instance

/-- Concrete 5×1 all-pavement strip world. -/
def lineWorld : World := ⟨5, 1, fun _ _ => BlockType.PAVEMENT⟩

/-- Waypoint graph generated for the strip world (two nodes at the strip
ends, joined by a weight-4 edge). -/
def lineGraph : Graph :=
  match generateGraph lineWorld BlockType.PAVEMENT
      [(BlockType.ROAD, 5), (BlockType.SAND, 20)] 32 with
  | .ok g => g
  | .error _ => []

/-- C1, counterexample: on the 5×1 pavement strip, `find_walking_path`
returns the route `[(0,0), (4,0)]` whose single consecutive pair is four
tile steps apart — the middle (waypoint-graph) segment of a returned route
is not tile-adjacent, refuting the cardinal-adjacency part of the claim. -/
theorem find_walking_path_not_adjacent :
    generateGraph lineWorld BlockType.PAVEMENT
        [(BlockType.ROAD, 5), (BlockType.SAND, 20)] 32 =
        .ok [((0, 0), [((4, 0), 4)]), ((4, 0), [((0, 0), 4)])] ∧
      findWalkingPath lineWorld lineGraph (0, 0) (4, 0) 32 =
        .ok (some [(0, 0), (4, 0)]) ∧
      ¬ stepAdjacent (0, 0) (4, 0) :=
  ⟨by decide, by decide, by decide⟩

/-- The §8 scenario world: a 10×10 grid, all pavement except a one-tile
grass border. -/
def scenarioWorld : World :=
  ⟨10, 10, fun x y =>
    if 1 ≤ x ∧ x ≤ 8 ∧ 1 ≤ y ∧ y ≤ 8 then BlockType.PAVEMENT
    else BlockType.GRASS⟩

/-- Waypoint graph of the scenario world: the 8×8 pavement square is one
region; being square, both derived corners coincide, so the graph has the
single node `(1, 1)` with no edges. -/
def scenarioGraph : Graph :=
  match generateGraph scenarioWorld BlockType.PAVEMENT
      [(BlockType.ROAD, 5), (BlockType.SAND, 20)] 64 with
  | .ok g => g
  | .error _ => []

/-- C5 (code bug): on the §8 single-node scenario, `find_route((1,1), (5,5))`
neither succeeds nor returns `None`: the frontier heap is constructed with
`size = len(graph) = 1`, and since `Heap._n` starts at 1, the very first
`frontier.add(start)` in `_find` trips the `_n == _max` guard and raises
`StandardError("Heap is full")` — an off-by-one in `Heap.add` that makes a
heap of configured size `s` hold at most `s - 1` elements. -/
theorem single_node_route_raises_heap_full :
    generateGraph scenarioWorld BlockType.PAVEMENT
        [(BlockType.ROAD, 5), (BlockType.SAND, 20)] 64 = .ok [((1, 1), [])] ∧
      findWalkingPath scenarioWorld scenarioGraph (1, 1) (5, 5) 64 =
        .error .heapFull :=
  ⟨by decide, by decide⟩

lemma head?_append_left {B : Type} (l1 l2 : List B) (h : l1 ≠ []) :
    (l1 ++ l2).head? = l1.head? := by
  cases l1 with
  | nil => exact absurd rfl h
  | cons a t => rfl

lemma getLast?_cons_ne_nil {B : Type} (a : B) (l : List B) (h : l ≠ []) :
    (a :: l).getLast? = l.getLast? := by
  cases l with
  | nil => exact absurd rfl h
  | cons b t => exact List.getLast?_cons_cons

lemma getLast?_append_right {B : Type} (l1 l2 : List B) (h : l2 ≠ []) :
    (l1 ++ l2).getLast? = l2.getLast? := by
  induction l1 with
  | nil => rfl
  | cons a t ih =>
    rw [List.cons_append, getLast?_cons_ne_nil a (t ++ l2)
      (fun hcon => h (List.append_eq_nil.mp hcon).2), ih]

lemma directWalk_last (dest : Pos) :
    ∀ (fuel : Nat) (current : Pos) (l : List Pos),
      directWalk dest fuel current = some l →
        (current :: l).getLast? = some dest := by
  intro fuel
  induction fuel with
  | zero => intro current l h; cases h
  | succ n ih =>
    intro current l h
    unfold directWalk at h
    by_cases heq : current = dest
    · rw [if_pos heq] at h
      obtain rfl := Option.some.inj h
      rw [heq]
      rfl
    · rw [if_neg heq] at h
      cases hdir : getDirectionBetween current dest with
      | none => rw [hdir] at h; cases h
      | some d =>
        rw [hdir] at h
        dsimp only at h
        cases hw : directWalk dest n (addDirection current d 1) with
        | none => rw [hw] at h; cases h
        | some l2 =>
          rw [hw] at h
          obtain rfl := Option.some.inj h
          rw [getLast?_cons_ne_nil current _ (by simp)]
          exact ih (addDirection current d 1) l2 hw

lemma findDirectPath_spec {fuel : Nat} {src dest : Pos} {p : List Pos}
    (h : findDirectPath fuel src dest = some p) :
    p ≠ [] ∧ p.head? = some src ∧ p.getLast? = some dest := by
  unfold findDirectPath at h
  cases hw : directWalk dest fuel src with
  | none => rw [hw] at h; cases h
  | some l =>
    rw [hw] at h
    obtain rfl := Option.some.inj h
    exact ⟨by simp, rfl, directWalk_last dest fuel src l hw⟩

lemma bubbleUp_memN_all (cmp : A → A → Int) (N : Nat) :
    ∀ (fuel i : Nat) (h : PyHeap A), 1 ≤ i → i < N →
      (∀ y, memN y (bubbleUp cmp fuel h i) N ↔ memN y h N) ∧
        (bubbleUp cmp fuel h i).n = h.n := by
  intro fuel
  induction fuel with
  | zero => intro i h h1 hN; exact ⟨fun y => Iff.rfl, rfl⟩
  | succ n ih =>
    intro i h h1 hN
    rw [bubbleUp]
    by_cases hle : i ≤ 1
    · rw [if_pos hle]
      exact ⟨fun y => Iff.rfl, rfl⟩
    · rw [if_neg hle]
      by_cases hcomp : hcmp cmp h i (i / 2) > 0
      · rw [if_pos hcomp]
        obtain ⟨m1, m2⟩ := ih (i / 2) (hswap h i (i / 2)) (by omega) (by omega)
        exact ⟨fun y => (m1 y).trans
          (memN_hswap h1 hN (by omega) (by omega) y), m2⟩
      · rw [if_neg hcomp]
        exact ⟨fun y => Iff.rfl, rfl⟩

lemma add_n {cmp : A → A → Int} {h h2 : PyHeap A} {x : A}
    (hadd : PyHeap.add cmp h x = .ok h2) : h2.n = h.n + 1 := by
  unfold PyHeap.add at hadd
  by_cases hfull : h.n = h.max
  · rw [if_pos hfull] at hadd; cases hadd
  · rw [if_neg hfull] at hadd
    dsimp only at hadd
    obtain rfl := Except.ok.inj hadd
    rfl

lemma add_heapMem {cmp : A → A → Int} {h h2 : PyHeap A} {x : A}
    (hn : 1 ≤ h.n) (hadd : PyHeap.add cmp h x = .ok h2) :
    ∀ y, heapMem y h2 → heapMem y h ∨ y = x := by
  unfold PyHeap.add at hadd
  by_cases hfull : h.n = h.max
  · rw [if_pos hfull] at hadd; cases hadd
  · rw [if_neg hfull] at hadd
    dsimp only at hadd
    obtain rfl := Except.ok.inj hadd
    intro y hy
    obtain ⟨m1, _⟩ := bubbleUp_memN_all cmp (h.n + 1) h.n h.n
      { h with arr := fun i => if i = h.n then some x else h.arr i }
      hn (by omega)
    obtain ⟨j, hj1, hjN, hj⟩ := (m1 y).mp hy
    dsimp only at hj
    by_cases hjn : j = h.n
    · rw [if_pos hjn] at hj
      exact Or.inr (Option.some.inj hj).symm
    · rw [if_neg hjn] at hj
      exact Or.inl ⟨j, hj1, by omega, hj⟩

lemma pop_fst_mem {cmp : A → A → Int} {h : PyHeap A} {v : A}
    (hn : 2 ≤ h.n) (hv : (PyHeap.pop cmp h).1 = some v) : heapMem v h := by
  rw [pop_fst_eq_root] at hv
  exact ⟨1, by omega, by omega, hv⟩

lemma bubbleDown_memN_all (cmp : A → A → Int) :
    ∀ (fuel : Nat) (h : PyHeap A) (i : Nat), 1 ≤ i →
      (∀ y, memN y (bubbleDown cmp fuel h i) h.n → memN y h h.n) ∧
        (bubbleDown cmp fuel h i).n = h.n := by
  intro fuel
  induction fuel with
  | zero => intro h i h1; exact ⟨fun y hy => hy, rfl⟩
  | succ n ih =>
    intro h i h1
    rw [bubbleDown]
    by_cases hl : h.n ≤ 2 * i
    · rw [if_pos hl]
      exact ⟨fun y hy => hy, rfl⟩
    · rw [if_neg hl]
      by_cases hr : h.n ≤ 2 * i + 1
      · rw [if_pos hr]
        by_cases hc : hcmp cmp h i (2 * i) < 0
        · rw [if_pos hc]
          obtain ⟨m1, m2⟩ := ih (hswap h i (2 * i)) (2 * i) (by omega)
          refine ⟨fun y hy => ?_, by rw [m2]; rfl⟩
          have := m1 y hy
          exact (memN_hswap (by omega) (by omega) (by omega) (by omega) y).mp this
        · rw [if_neg hc]
          exact ⟨fun y hy => hy, rfl⟩
      · rw [if_neg hr]
        by_cases hc1 : hcmp cmp h i (2 * i) < 0 ∧ hcmp cmp h (2 * i + 1) (2 * i) < 0
        · rw [if_pos hc1]
          obtain ⟨m1, m2⟩ := ih (hswap h i (2 * i)) (2 * i) (by omega)
          refine ⟨fun y hy => ?_, by rw [m2]; rfl⟩
          have := m1 y hy
          exact (memN_hswap (by omega) (by omega) (by omega) (by omega) y).mp this
        · rw [if_neg hc1]
          by_cases hc2 : hcmp cmp h i (2 * i + 1) < 0 ∧ hcmp cmp h (2 * i) (2 * i + 1) < 0
          · rw [if_pos hc2]
            obtain ⟨m1, m2⟩ := ih (hswap h i (2 * i + 1)) (2 * i + 1) (by omega)
            refine ⟨fun y hy => ?_, by rw [m2]; rfl⟩
            have := m1 y hy
            exact (memN_hswap (by omega) (by omega) (by omega) (by omega) y).mp this
          · rw [if_neg hc2]
            exact ⟨fun y hy => hy, rfl⟩

lemma pop_snd_mem (cmp : A → A → Int) {h : PyHeap A}
    (hn : 2 ≤ h.n) :
    (∀ y, heapMem y (PyHeap.pop cmp h).2 → heapMem y h) ∧
      (PyHeap.pop cmp h).2.n = h.n - 1 := by
  unfold PyHeap.pop
  dsimp only
  obtain ⟨m1, m2⟩ := bubbleDown_memN_all cmp (h.n - 1)
    (PyHeap.mk
      (fun i => if i = h.n - 1 then none else (hswap h 1 (h.n - 1)).arr i)
      (h.n - 1) (hswap h 1 (h.n - 1)).max) 1 (by omega)
  constructor
  · intro y hy
    unfold heapMem at hy
    rw [m2] at hy
    obtain ⟨j, hj1, hjN, hj⟩ := m1 y hy
    dsimp only at hj hjN
    by_cases hjn : j = h.n - 1
    · rw [if_pos hjn] at hj
      cases hj
    · rw [if_neg hjn] at hj
      unfold hswap at hj
      dsimp only at hj
      by_cases hj1a : j = 1
      · rw [if_pos hj1a] at hj
        exact ⟨h.n - 1, by omega, by omega, hj⟩
      · rw [if_neg hj1a, if_neg hjn] at hj
        exact ⟨j, hj1, by omega, hj⟩
  · rw [m2]

/-- Domain membership of the `came_from` dict. -/
def inDom (t : Trace) (x : Pos) : Prop := ∃ e ∈ t, e.1 = x

/-- Invariant of `came_from`: every recorded predecessor is either the start
node or has a `came_from` entry of its own (it was itself relaxed before
being popped). -/
def TraceP (start : Pos) (t : Trace) : Prop :=
  ∀ e ∈ t, e.2 = start ∨ inDom t e.2

/-- Invariant of the frontier: every stored node is the start node or has a
`came_from` entry. -/
def FrontP (start : Pos) (t : Trace) (f : PyHeap Pos) : Prop :=
  ∀ x, heapMem x f → x = start ∨ inDom t x

lemma inDom_mono {t : Trace} {e : Pos × Pos} {x : Pos}
    (h : inDom t x) : inDom (e :: t) x := by
  obtain ⟨e2, he2, hx⟩ := h
  exact ⟨e2, List.mem_cons_of_mem e he2, hx⟩

lemma alookup_none_not_inDom {B : Type} {t : List (Pos × B)} {x : Pos}
    (h : alookup t x = none) : ¬ ∃ e ∈ t, e.1 = x := by
  rintro ⟨e, he, hx⟩
  unfold alookup at h
  cases hf : t.find? fun q => q.1 == x with
  | none =>
    have := List.find?_eq_none.mp hf e he
    simp [hx] at this
  | some e2 =>
    rw [hf] at h
    simp at h

lemma alookup_some_mem {B : Type} {t : List (Pos × B)} {x : Pos} {v : B}
    (h : alookup t x = some v) : (x, v) ∈ t := by
  unfold alookup at h
  cases hf : t.find? fun e => e.1 == x with
  | none => rw [hf] at h; cases h
  | some e =>
    rw [hf] at h
    obtain rfl := Option.some.inj h
    have hmem := List.mem_of_find?_eq_some hf
    have hkey := List.find?_some hf
    have : e.1 = x := by simpa using hkey
    rw [← this]
    exact hmem

lemma processNeighbors_spec (goal current start : Pos) :
    ∀ (nbs : List (Pos × Int)) (f : PyHeap Pos) (c : Costs) (t : Trace)
      (out : PyHeap Pos × Costs × Trace),
      1 ≤ f.n → TraceP start t → FrontP start t f →
      (current = start ∨ inDom t current) →
      processNeighbors goal current nbs f c t = .ok out →
      1 ≤ out.1.n ∧ TraceP start out.2.2 ∧ FrontP start out.2.2 out.1 := by
  intro nbs
  induction nbs with
  | nil =>
    intro f c t out hf hT hF hcur hrun
    obtain rfl : (f, c, t) = out := by simpa [processNeighbors] using hrun
    exact ⟨hf, hT, hF⟩
  | cons nw rest ih =>
    intro f c t out hf hT hF hcur hrun
    obtain ⟨nb, wt⟩ := nw
    unfold processNeighbors at hrun
    cases hcc : alookup c current with
    | none => rw [hcc] at hrun; cases hrun
    | some ccur =>
      rw [hcc] at hrun
      dsimp only at hrun
      by_cases hbetter : (match alookup c nb with
        | none => true
        | some old => decide (ccur + wt < old)) = true
      · rw [if_pos hbetter] at hrun
        cases hadd : PyHeap.add (frontierCmp goal) f nb with
        | error e => rw [hadd] at hrun; cases hrun
        | ok f2 =>
          rw [hadd] at hrun
          have hf2 : 1 ≤ f2.n := by rw [add_n hadd]; omega
          have hT2 : TraceP start ((nb, current) :: t) := by
            intro e he
            rcases List.mem_cons.mp he with rfl | he2
            · rcases hcur with hs | hd
              · exact Or.inl hs
              · exact Or.inr (inDom_mono hd)
            · rcases hT e he2 with hs | hd
              · exact Or.inl hs
              · exact Or.inr (inDom_mono hd)
          have hF2 : FrontP start ((nb, current) :: t) f2 := by
            intro x hx
            rcases add_heapMem hf hadd x hx with hold | rfl
            · rcases hF x hold with hs | hd
              · exact Or.inl hs
              · exact Or.inr (inDom_mono hd)
            · exact Or.inr ⟨(x, current), List.mem_cons_self _ _, rfl⟩
          have hcur2 : current = start ∨ inDom ((nb, current) :: t) current := by
            rcases hcur with hs | hd
            · exact Or.inl hs
            · exact Or.inr (inDom_mono hd)
          exact ih f2 ((nb, ccur + wt) :: c) ((nb, current) :: t) out
            hf2 hT2 hF2 hcur2 hrun
      · rw [if_neg hbetter] at hrun
        exact ih f c t out hf hT hF hcur hrun

lemma findLoop_spec (graph : Graph) (goal start : Pos) :
    ∀ (fuel : Nat) (f : PyHeap Pos) (c : Costs) (t : Trace) (res : Pos × Trace),
      1 ≤ f.n → TraceP start t → FrontP start t f →
      findLoop graph goal fuel f c t = .ok (some res) →
      res.1 = goal ∧ TraceP start res.2 ∧ (goal = start ∨ inDom res.2 goal) := by
  intro fuel
  induction fuel with
  | zero => intro f c t res hf hT hF hrun; cases hrun
  | succ n ih =>
    intro f c t res hf hT hF hrun
    unfold findLoop at hrun
    by_cases hempty : f.empty
    · rw [if_pos hempty] at hrun
      cases hrun
    · rw [if_neg hempty] at hrun
      have hn2 : 2 ≤ f.n := by
        unfold PyHeap.empty at hempty
        simp at hempty
        omega
      cases hpop : PyHeap.pop (frontierCmp goal) f with
      | mk vOpt f2 =>
        rw [hpop] at hrun
        cases vOpt with
        | none => dsimp only at hrun; cases hrun
        | some current =>
          dsimp only at hrun
          have hvfst : (PyHeap.pop (frontierCmp goal) f).1 = some current := by
            rw [hpop]
          have hcurmem : heapMem current f := pop_fst_mem hn2 hvfst
          have hcur : current = start ∨ inDom t current := hF current hcurmem
          by_cases hgoal : current = goal
          · rw [if_pos hgoal] at hrun
            obtain rfl := Option.some.inj (Except.ok.inj hrun)
            refine ⟨rfl, hT, ?_⟩
            rw [← hgoal]
            exact hcur
          · rw [if_neg hgoal] at hrun
            cases hlook : graphLookup graph current with
            | none => rw [hlook] at hrun; cases hrun
            | some neighbors =>
              rw [hlook] at hrun
              dsimp only at hrun
              cases hproc : processNeighbors goal current neighbors f2 c t with
              | error e => rw [hproc] at hrun; cases hrun
              | ok out =>
                rw [hproc] at hrun
                obtain ⟨po1, po2⟩ := pop_snd_mem (frontierCmp goal) hn2
                have hf2T : FrontP start t f2 := by
                  intro x hx
                  refine hF x (po1 x ?_)
                  rw [hpop]
                  exact hx
                have hf2n : 1 ≤ f2.n := by
                  have he2 : f2.n = f.n - 1 := by rw [← po2, hpop]
                  omega
                obtain ⟨q1, q2, q3⟩ := processNeighbors_spec goal current start
                  neighbors f2 c t out hf2n hT hf2T hcur hproc
                obtain ⟨o1, o2, o3⟩ := out
                exact ih o1 o2 o3 res q1 q2 q3 hrun

lemma traceWalk_spec {t : Trace} {start : Pos} (hT : TraceP start t) :
    ∀ (fuel : Nat) (node : Pos) (l : List Pos),
      traceWalk t fuel node = some l → (node = start ∨ inDom t node) →
      l.head? = some node ∧ l.getLast? = some start := by
  intro fuel
  induction fuel with
  | zero => intro node l h hn; cases h
  | succ n ih =>
    intro node l h hn
    unfold traceWalk at h
    cases hl : alookup t node with
    | none =>
      rw [hl] at h
      obtain rfl := Option.some.inj h
      have hstart : node = start := by
        rcases hn with hs | hd
        · exact hs
        · exact absurd hd (alookup_none_not_inDom hl)
      rw [hstart]
      exact ⟨rfl, rfl⟩
    | some v =>
      rw [hl] at h
      dsimp only at h
      cases hw : traceWalk t n v with
      | none => rw [hw] at h; cases h
      | some l2 =>
        rw [hw] at h
        obtain rfl := Option.some.inj h
        have hv : v = start ∨ inDom t v := by
          have hmem := alookup_some_mem hl
          have := hT (node, v) hmem
          simpa using this
        obtain ⟨ih1, ih2⟩ := ih v l2 hw hv
        have hl2 : l2 ≠ [] := by
          intro hcon
          rw [hcon] at ih1
          cases ih1
        exact ⟨rfl, by rw [getLast?_cons_ne_nil node l2 hl2]; exact ih2⟩

lemma findPath_spec {graph : Graph} {start goal : Pos} {fuel : Nat}
    {p : List Pos} (hrun : findPath graph start goal fuel = .ok (some p)) :
    p ≠ [] ∧ p.head? = some start ∧ p.getLast? = some goal := by
  unfold findPath findA at hrun
  cases hadd : PyHeap.add (frontierCmp goal) (PyHeap.mk0 Pos graph.length)
      start with
  | error e => rw [hadd] at hrun; cases hrun
  | ok f1 =>
    rw [hadd] at hrun
    dsimp only at hrun
    cases hloop : findLoop graph goal fuel f1 [(start, 0)] [] with
    | error e => rw [hloop] at hrun; cases hrun
    | ok o =>
      rw [hloop] at hrun
      cases o with
      | none => cases hrun
      | some res =>
        obtain ⟨node, trace⟩ := res
        dsimp only at hrun
        have hTnil : TraceP start ([] : Trace) := by
          intro e he
          cases he
        have hFinit : FrontP start ([] : Trace) f1 := by
          intro x hx
          rcases add_heapMem (by simp [PyHeap.mk0]) hadd x hx with hold | rfl
          · obtain ⟨j, hj1, hjN, hj⟩ := hold
            exfalso
            simp [PyHeap.mk0] at hjN
            omega
          · exact Or.inl rfl
        obtain ⟨r1, r2, r3⟩ := findLoop_spec graph goal start fuel f1
          [(start, 0)] [] (node, trace) (by rw [add_n hadd]; simp) hTnil
          hFinit hloop
        dsimp only at r1
        subst r1
        cases hwalk : traceWalk trace (trace.length + 1) node with
        | none => rw [hwalk] at hrun; cases hrun
        | some l =>
          rw [hwalk] at hrun
          obtain rfl := Option.some.inj (Except.ok.inj hrun)
          obtain ⟨w1, w2⟩ := traceWalk_spec r2 (trace.length + 1) node l hwalk r3
          have hlne : l ≠ [] := by
            intro hcon
            rw [hcon] at w1
            cases w1
          refine ⟨by simpa using hlne, ?_, ?_⟩
          · rw [List.head?_reverse]
            exact w2
          · rw [List.getLast?_reverse]
            exact w1

/-- C1 amended: for every call of `find_walking_path(src, dest)` that returns
a route, the first tile of the route equals `src` and the last tile equals
`dest`; the cardinal-adjacency part of the claim does not hold — consecutive
route entries may be several tiles apart where the route follows a
waypoint-graph edge (see the counterexample). -/
theorem find_walking_path_endpoints (w : World) (g : Graph) (src dest : Pos)
    (fuel : Nat) (path : List Pos)
    (hrun : findWalkingPath w g src dest fuel = .ok (some path)) :
    path.head? = some src ∧ path.getLast? = some dest := by
  unfold findWalkingPath at hrun
  cases h1 : findNearestNode w g src (some BlockType.PAVEMENT) fuel with
  | error e => rw [h1] at hrun; cases hrun
  | ok startOpt =>
    rw [h1] at hrun
    dsimp only at hrun
    cases h2 : findNearestNode w g dest (some BlockType.PAVEMENT) fuel with
    | error e => rw [h2] at hrun; cases hrun
    | ok endOpt =>
      rw [h2] at hrun
      dsimp only at hrun
      cases startOpt with
      | none => cases endOpt <;> cases hrun
      | some startNode =>
        cases endOpt with
        | none => cases hrun
        | some endNode =>
          dsimp only at hrun
          cases h3 : findDirectPath fuel src startNode with
          | none => rw [h3] at hrun; cases hrun
          | some prefixPath =>
            rw [h3] at hrun
            dsimp only at hrun
            cases h4 : findPath g startNode endNode fuel with
            | error e => rw [h4] at hrun; cases hrun
            | ok mainOpt =>
              rw [h4] at hrun
              dsimp only at hrun
              cases h5 : findDirectPath fuel endNode dest with
              | none => rw [h5] at hrun; cases hrun
              | some suffixPath =>
                rw [h5] at hrun
                dsimp only at hrun
                cases mainOpt with
                | none => cases hrun
                | some mainPath =>
                  dsimp only at hrun
                  by_cases hguard :
                      mainPath = [] ∨ prefixPath = [] ∨ suffixPath = []
                  · rw [if_pos hguard] at hrun
                    simp at hrun
                  · rw [if_neg hguard] at hrun
                    obtain rfl := (Option.some.inj (Except.ok.inj hrun)).symm
                    push_neg at hguard
                    obtain ⟨hm, hp, hs⟩ := hguard
                    obtain ⟨hpne, hphead, hplast⟩ := findDirectPath_spec h3
                    obtain ⟨hsne, hshead, hslast⟩ := findDirectPath_spec h5
                    obtain ⟨hmne, hmhead, hmlast⟩ := findPath_spec h4
                    constructor
                    · rw [head?_append_left _ _ (by simp [hp])]
                      rw [head?_append_left _ _ hp]
                      exact hphead
                    · cases suffixPath with
                      | nil => exact absurd rfl hs
                      | cons s1 srest =>
                        cases srest with
                        | cons s2 srest2 =>
                          rw [getLast?_append_right _ _ (by simp)]
                          dsimp only [List.drop]
                          rw [← getLast?_cons_ne_nil s1 (s2 :: srest2) (by simp)]
                          exact hslast
                        | nil =>
                          have hsn : endNode = dest := by
                            have hh : s1 = endNode := by
                              simpa using hshead
                            have hl : s1 = dest := by
                              simpa using hslast
                            rw [← hh, hl]
                          dsimp only [List.drop]
                          rw [List.append_nil]
                          cases mainPath with
                          | nil => exact absurd rfl hm
                          | cons m1 mrest =>
                            cases mrest with
                            | nil =>
                              have hm1 : m1 = startNode := by simpa using hmhead
                              have hm2 : m1 = endNode := by simpa using hmlast
                              dsimp only [List.drop]
                              rw [List.append_nil]
                              rw [hplast, ← hsn, ← hm2, hm1]
                            | cons m2 mrest2 =>
                              dsimp only [List.drop]
                              rw [getLast?_append_right _ _ (by simp)]
                              rw [← getLast?_cons_ne_nil m1 (m2 :: mrest2)
                                (by simp)]
                              rw [hmlast, hsn]

/-- Witness for the amended C1 theorem at the 5×1 strip world. -/
theorem find_walking_path_endpoints_witness :
    findWalkingPath lineWorld lineGraph (0, 0) (4, 0) 32 =
        .ok (some [(0, 0), (4, 0)]) ∧
      ([(0, 0), (4, 0)] : List Pos).head? = some (0, 0) ∧
      ([(0, 0), (4, 0)] : List Pos).getLast? = some (4, 0) :=
  ⟨by decide, find_walking_path_endpoints lineWorld lineGraph (0, 0) (4, 0) 32
    [(0, 0), (4, 0)] (by decide)⟩

/-- Task states of `ai.Task` (`RUNNING = 0`, `FAILURE = 1`, `SUCCESS = 2`).
`process` results are modelled as `Option PyStatus`, with `none` standing for
Python's `None` (a method falling off its end without a return). -/
inductive PyStatus where
  | running
  | failure
  | success
deriving DecidableEq, Repr

/-- Lifecycle events observed on tasks: a call of `init()` or `end()` on the
task with the given id. -/
inductive Ev where
  | inited (id : Nat)
  | ended (id : Nat)
deriving DecidableEq, Repr

/-- Runtime state of a behaviour-tree task.  Leaves stand for the
user-defined `LeafTask`s: a scripted list of statuses returned by successive
`process()` calls, then a default status forever (leaf `init`/`end` are the
no-ops of the base `Task`).  Composites carry `children_tasks` and the live
`children_stack` (head = top).  `rep` is `Repeater` with its remaining
`repeat_times`. -/
inductive RTask where
  | leaf (id : Nat) (script : List PyStatus) (dflt : PyStatus)
  | seq (id : Nat) (children : List RTask) (stack : List RTask)
  | sel (id : Nat) (children : List RTask) (stack : List RTask)
  | rep (id : Nat) (child : RTask) (times : Int)

/-- Translation of `end()`: `Task.end` is a no-op, `Composite.end` clears the
children stack WITHOUT ending the children, `Decorator.end` ends its child.
Every call is logged. -/
def endT : RTask → RTask × List Ev
  | .leaf i s d => (.leaf i s d, [.ended i])
  | .seq i ch _ => (.seq i ch [], [.ended i])
  | .sel i ch _ => (.sel i ch [], [.ended i])
  | .rep i c t =>
    let r := endT c
    (.rep i r.1 t, .ended i :: r.2)

/-- Translation of `init()`: `Composite.init` pushes the reversed children
(so the first child is on top) and inits the new top; `Decorator.init` inits
its child.  Fuel is a model artifact (call depth is bounded by the tree
depth); an initialised composite with an empty stack would crash Python
(`None.init()`) and is never reached in the modelled scenarios.  The source
pushes aliases of the `children_tasks` objects; the modelled scenarios
initialise each composite only once, so the value copy is equivalent. -/
def initT : Nat → RTask → RTask × List Ev
  | 0, t => (t, [])
  | _ + 1, .leaf i s d => (.leaf i s d, [.inited i])
  | fuel + 1, .seq i ch st =>
    (match ch ++ st with
    | [] => (.seq i ch [], [.inited i])
    | c :: rest =>
      let r := initT fuel c
      (.seq i ch (r.1 :: rest), .inited i :: r.2))
  | fuel + 1, .sel i ch st =>
    (match ch ++ st with
    | [] => (.sel i ch [], [.inited i])
    | c :: rest =>
      let r := initT fuel c
      (.sel i ch (r.1 :: rest), .inited i :: r.2))
  | fuel + 1, .rep i c t =>
    let r := initT fuel c
    (.rep i r.1 t, .inited i :: r.2)

/-- Translation of `process()` for the task kinds the claims exercise:
`Sequence.process`, `Selector.process` (which falls off its end and returns
`None` after ending a failed child and initialising the next) and
`Repeater.process`.  Fuel is a model artifact bounded by tree depth.
A composite processed with an empty stack would crash Python
(`None.process()`); the modelled scenarios never reach that state. -/
def processT : Nat → RTask → Option PyStatus × RTask × List Ev
  | 0, t => (none, t, [])
  | _ + 1, .leaf i [] d => (some d, .leaf i [] d, [])
  | _ + 1, .leaf i (s :: rest) d => (some s, .leaf i rest d, [])
  | fuel + 1, .seq i ch st =>
    (match st with
    | [] => (none, .seq i ch [], [])
    | c :: rest =>
      let r := processT fuel c
      if r.1 = some .success then
        let re := endT r.2.1
        match rest with
        | [] => (some .success, .seq i ch [], r.2.2 ++ re.2)
        | c4 :: rest2 =>
          let ri := initT fuel c4
          (some .running, .seq i ch (ri.1 :: rest2), r.2.2 ++ re.2 ++ ri.2)
      else (r.1, .seq i ch (r.2.1 :: rest), r.2.2))
  | fuel + 1, .sel i ch st =>
    (match st with
    | [] => (none, .sel i ch [], [])
    | c :: rest =>
      let r := processT fuel c
      if r.1 = some .failure then
        let re := endT r.2.1
        match rest with
        | [] => (some .failure, .sel i ch [], r.2.2 ++ re.2)
        | c4 :: rest2 =>
          let ri := initT fuel c4
          (none, .sel i ch (ri.1 :: rest2), r.2.2 ++ re.2 ++ ri.2)
      else (r.1, .sel i ch (r.2.1 :: rest), r.2.2))
  | fuel + 1, .rep i c t =>
    let r := processT fuel c
    if r.1 = some .running then (some .running, .rep i r.2.1 t, r.2.2)
    else if t > 0 then
      if t - 1 = 0 then (some .success, .rep i r.2.1 (t - 1), r.2.2)
      else
        let re := endT r.2.1
        let ri := initT fuel re.1
        (some .running, .rep i ri.1 (t - 1), r.2.2 ++ re.2 ++ ri.2)
    else
      let re := endT r.2.1
      let ri := initT fuel re.1
      (some .running, .rep i ri.1 t, r.2.2 ++ re.2 ++ ri.2)

/-- Translation of `BehaviourTree.set_root`: end the current root (if any),
install and initialise the new one. -/
def setRoot (fuel : Nat) (current : Option RTask) (node : RTask) :
    RTask × List Ev :=
  let ev1 := match current with
    | none => []
    | some t => (endT t).2
  let r := initT fuel node
  (r.1, ev1 ++ r.2)

/-- Whether an event is an `end()` call on the task with the given id. -/
def isEndedOf (i : Nat) : Ev → Bool
  | .ended j => j == i
  | .inited _ => false

/-- Number of `end()` calls observed on the task with the given id. -/
def countEnded (i : Nat) (evs : List Ev) : Nat :=
  (evs.filter (isEndedOf i)).length

lemma countEnded_append (i : Nat) (a b : List Ev) :
    countEnded i (a ++ b) = countEnded i a + countEnded i b := by
  simp [countEnded, List.filter_append]

lemma initT_no_ended (i : Nat) :
    ∀ fuel t, countEnded i (initT fuel t).2 = 0 := by
  intro fuel
  induction fuel with
  | zero => intro t; rfl
  | succ n ih =>
    intro t
    cases t with
    | leaf j s d => simp [initT, countEnded, isEndedOf, List.filter]
    | seq j ch st =>
      cases h : ch ++ st with
      | nil =>
        simp only [initT]
        rw [h]
        simp [countEnded, isEndedOf, List.filter]
      | cons c rest =>
        have hc := ih c
        simp only [initT]
        rw [h]
        dsimp only
        simp [countEnded, isEndedOf, List.filter] at hc ⊢
        exact hc
    | sel j ch st =>
      cases h : ch ++ st with
      | nil =>
        simp only [initT]
        rw [h]
        simp [countEnded, isEndedOf, List.filter]
      | cons c rest =>
        have hc := ih c
        simp only [initT]
        rw [h]
        dsimp only
        simp [countEnded, isEndedOf, List.filter] at hc ⊢
        exact hc
    | rep j c t =>
      have hc := ih c
      simp only [initT]
      simp [countEnded, isEndedOf, List.filter] at hc ⊢
      exact hc

/-- Concrete tree for exercising root replacement: a Sequence (id 0) with a
single leaf child (id 1). -/
def c6Root : RTask := .seq 0 [.leaf 1 [] .success] []

/-- Full event history of installing c6Root as the behaviour-tree root and
then replacing it with a fresh leaf (id 2), as `set_root` does. -/
def c6Hist : List Ev :=
  (setRoot 3 none c6Root).2 ++
    (setRoot 3 (some (setRoot 3 none c6Root).1) (.leaf 2 [] .success)).2

/-- C6 counterexample: the leaf child (id 1) becomes active (its `init()` is
called when the Sequence root is installed), and the root is then replaced,
yet across the whole history the child's `end()` is never called:
`Composite.end` merely clears the children stack without ending the
still-active children, so "every still-active descendant is ended exactly
once" fails — the count is 0, not 1. -/
theorem set_root_skips_descendant_end :
    Ev.inited 1 ∈ c6Hist ∧ countEnded 1 c6Hist = 0 := by decide

/-- C6 amended: replacing the root `Sequence` via `set_root` calls `end()`
exactly once on the replaced root itself, and on no other task id: the
outgoing root's `end` (Composite.end) clears its stack without ending any
descendant, and initialising the new root emits no `end()` calls at all. -/
theorem set_root_ends_only_root (fuel : Nat) (i : Nat) (ch st : List RTask)
    (nr : RTask) :
    countEnded i (setRoot fuel (some (.seq i ch st)) nr).2 = 1 ∧
    ∀ j, j ≠ i → countEnded j (setRoot fuel (some (.seq i ch st)) nr).2 = 0 := by
  constructor
  · simp only [setRoot, endT, countEnded_append]
    rw [initT_no_ended]
    simp [countEnded, isEndedOf, List.filter]
  · intro j hj
    simp only [setRoot, endT, countEnded_append]
    rw [initT_no_ended]
    have : (i == j) = false := beq_eq_false_iff_ne.mpr (Ne.symm hj)
    simp [countEnded, isEndedOf, List.filter, this]

/-- Witness for set_root_ends_only_root at a concrete tree. -/
theorem set_root_ends_only_root_witness :
    countEnded 0
        (setRoot 3 (some (.seq 0 [.leaf 1 [] .success] []))
          (.leaf 2 [] .success)).2 = 1 ∧
      countEnded 1
        (setRoot 3 (some (.seq 0 [.leaf 1 [] .success] []))
          (.leaf 2 [] .success)).2 = 0 :=
  ⟨(set_root_ends_only_root 3 0 [.leaf 1 [] .success] [] (.leaf 2 [] .success)).1,
   (set_root_ends_only_root 3 0 [.leaf 1 [] .success] []
     (.leaf 2 [] .success)).2 1 (by decide)⟩

/-- A Selector (id i) over leaf children A (id ia, scripted statuses sa then
FAILURE forever) and B (id ib, scripted sb then SUCCESS forever), with its
children stack as `Composite.init` leaves it (A on top, then B). -/
def selInit (i ia ib : Nat) (sa sb : List PyStatus) : RTask :=
  .sel i [.leaf ia sa .failure, .leaf ib sb .success]
    [.leaf ia sa .failure, .leaf ib sb .success]

/-- C7 counterexample: with children [A, B] where A immediately FAILUREs and
B immediately SUCCESSes, the tick on which A fails returns `None`, not
RUNNING: `Selector.process` ends and pops A and initialises B, but then
falls off the end of the method without a return statement. -/
theorem selector_transition_tick_returns_none :
    (processT 3
        (initT 3 (.sel 0 [.leaf 1 [] .failure, .leaf 2 [] .success] [])).1).1 =
      none ∧
    (processT 3
        (initT 3 (.sel 0 [.leaf 1 [] .failure, .leaf 2 [] .success] [])).1).1 ≠
      some PyStatus.running := by decide

/-- C7 amended: for every Selector with children [A, B] where A's process()
always returns FAILURE and B's always returns SUCCESS, the tick on which A
fails ends A, initialises B and returns None (Python falls off the end of
Selector.process, not RUNNING); the next tick returns SUCCESS. -/
theorem selector_fallthrough_behaviour (f i ia ib : Nat)
    (sa sb : List PyStatus)
    (hsa : ∀ x ∈ sa, x = PyStatus.failure)
    (hsb : ∀ x ∈ sb, x = PyStatus.success) :
    (initT (f + 2) (.sel i [.leaf ia sa .failure, .leaf ib sb .success] [])).1 =
      selInit i ia ib sa sb ∧
    (processT (f + 2) (selInit i ia ib sa sb)).1 = none ∧
    Ev.ended ia ∈ (processT (f + 2) (selInit i ia ib sa sb)).2.2 ∧
    Ev.inited ib ∈ (processT (f + 2) (selInit i ia ib sa sb)).2.2 ∧
    (processT (f + 2) (processT (f + 2) (selInit i ia ib sa sb)).2.1).1 =
      some PyStatus.success := by
  obtain ⟨sa2, hA⟩ :
      ∃ sa2, processT (f + 1) (.leaf ia sa .failure) =
        (some PyStatus.failure, .leaf ia sa2 PyStatus.failure, []) := by
    cases sa with
    | nil => exact ⟨[], rfl⟩
    | cons s rest =>
      have hs := hsa s (List.mem_cons_self s rest)
      subst hs
      exact ⟨rest, rfl⟩
  obtain ⟨sb2, hB⟩ :
      ∃ sb2, processT (f + 1) (.leaf ib sb .success) =
        (some PyStatus.success, .leaf ib sb2 PyStatus.success, []) := by
    cases sb with
    | nil => exact ⟨[], rfl⟩
    | cons s rest =>
      have hs := hsb s (List.mem_cons_self s rest)
      subst hs
      exact ⟨rest, rfl⟩
  have hstep1 : processT (f + 2) (selInit i ia ib sa sb) =
      (none,
        .sel i [.leaf ia sa .failure, .leaf ib sb .success]
          [.leaf ib sb .success],
        [Ev.ended ia, Ev.inited ib]) := by
    simp only [selInit, processT]
    rw [hA]
    simp [endT, initT]
  have hstep2 : (processT (f + 2)
      (.sel i [.leaf ia sa .failure, .leaf ib sb .success]
        [.leaf ib sb .success])).1 = some PyStatus.success := by
    simp only [processT]
    rw [hB]
    simp
  refine ⟨?_, ?_, ?_, ?_, ?_⟩
  · simp [initT, selInit]
  · rw [hstep1]
  · rw [hstep1]; simp
  · rw [hstep1]; simp
  · rw [hstep1]; exact hstep2

/-- Witness for selector_fallthrough_behaviour at concrete scripts. -/
theorem selector_fallthrough_behaviour_witness :
    (initT 3
        (.sel 0 [.leaf 1 [PyStatus.failure] .failure,
          .leaf 2 [PyStatus.success] .success] [])).1 =
      selInit 0 1 2 [PyStatus.failure] [PyStatus.success] ∧
    (processT 3 (selInit 0 1 2 [PyStatus.failure] [PyStatus.success])).1 =
      none ∧
    Ev.ended 1 ∈
      (processT 3 (selInit 0 1 2 [PyStatus.failure] [PyStatus.success])).2.2 ∧
    Ev.inited 2 ∈
      (processT 3 (selInit 0 1 2 [PyStatus.failure] [PyStatus.success])).2.2 ∧
    (processT 3
        (processT 3
          (selInit 0 1 2 [PyStatus.failure] [PyStatus.success])).2.1).1 =
      some PyStatus.success :=
  selector_fallthrough_behaviour 1 0 1 2 [PyStatus.failure] [PyStatus.success]
    (by intro x hx; simpa using hx) (by intro x hx; simpa using hx)

/-- Behaviour-tree states for ticking a Repeater (repeat_times = 2) wrapping
a leaf (id 1) that immediately SUCCEEDs, starting from the initialised
tree. -/
def c8St0 : RTask := (initT 3 (.rep 0 (.leaf 1 [] PyStatus.success) 2)).1

def c8St1 : RTask := (processT 3 c8St0).2.1

def c8St2 : RTask := (processT 3 c8St1).2.1

/-- C8 counterexample: with repeat_times = 2 and an always-SUCCESS child,
the second process() call returns SUCCESS (not RUNNING as claimed: the
budget is decremented once per completion and hits 0 on the SECOND, not the
third), and the third call returns RUNNING (repeat_times is then 0, which
fails the `> 0` test, so the repeater ends/re-inits the child and repeats
forever). -/
theorem repeater_budget_off_by_one :
    (processT 3 c8St1).1 = some PyStatus.success ∧
    (processT 3 c8St2).1 = some PyStatus.running := by decide

/-- C8 amended: a Repeater with repeat_times = 2 wrapping a child whose
process() always immediately returns SUCCESS reports RUNNING on the first
child completion and SUCCESS on the second: each completion decrements the
budget, and SUCCESS is returned as soon as the decremented budget reaches
0. -/
theorem repeater_two_completions (f i ic : Nat) (sc : List PyStatus)
    (hsc : ∀ x ∈ sc, x = PyStatus.success) :
    (processT (f + 2) (.rep i (.leaf ic sc .success) 2)).1 =
      some PyStatus.running ∧
    (processT (f + 2)
        (processT (f + 2) (.rep i (.leaf ic sc .success) 2)).2.1).1 =
      some PyStatus.success := by
  obtain ⟨sc2, hsc2, hC⟩ :
      ∃ sc2, (∀ x ∈ sc2, x = PyStatus.success) ∧
        processT (f + 1) (.leaf ic sc .success) =
          (some PyStatus.success, .leaf ic sc2 PyStatus.success, []) := by
    cases sc with
    | nil => exact ⟨[], And.intro (by intro x hx; cases hx) rfl⟩
    | cons s rest =>
      have hs := hsc s (List.mem_cons_self s rest)
      subst hs
      exact ⟨rest, fun x hx => hsc x (List.mem_cons_of_mem _ hx), rfl⟩
  obtain ⟨sc3, hC2⟩ :
      ∃ sc3, processT (f + 1) (.leaf ic sc2 .success) =
        (some PyStatus.success, .leaf ic sc3 PyStatus.success, []) := by
    cases sc2 with
    | nil => exact ⟨[], rfl⟩
    | cons s rest =>
      have hs := hsc2 s (List.mem_cons_self s rest)
      subst hs
      exact ⟨rest, rfl⟩
  have hstep1 : processT (f + 2) (.rep i (.leaf ic sc .success) 2) =
      (some PyStatus.running, .rep i (.leaf ic sc2 PyStatus.success) 1,
        [Ev.ended ic, Ev.inited ic]) := by
    simp only [processT]
    rw [hC]
    simp [endT, initT]
  constructor
  · rw [hstep1]
  · rw [hstep1]
    simp only [processT]
    rw [hC2]
    simp

/-- Witness for repeater_two_completions at a concrete script. -/
theorem repeater_two_completions_witness :
    (processT 3 (.rep 0 (.leaf 1 [PyStatus.success] .success) 2)).1 =
      some PyStatus.running ∧
    (processT 3
        (processT 3 (.rep 0 (.leaf 1 [PyStatus.success] .success) 2)).2.1).1 =
      some PyStatus.success :=
  repeater_two_completions 1 0 1 [PyStatus.success]
    (by intro x hx; simpa using hx)

/-- Translation of `util.tile_to_pixel`: componentwise multiplication by
`TILE_SIZE = 32`. -/
def tileToPixel (t : Pos) : Pos := (t.1 * 32, t.2 * 32)

/-- Translation of the inner `for j in xrange(abs(diff))` loop of
`HumanFollowPath.__init__` for one axis: the tiles appended while stepping
`axis` of `t0` by `delta = diff / abs(diff)`.  Note the axis-1 branch bases
BOTH coordinates on `t0`, discarding any progress made along axis 0. -/
def axisSteps (t0 : Pos) (axis : Nat) (diff : Int) : List Pos :=
  if diff = 0 then []
  else
    let delta := diff / (diff.natAbs : Int)
    (List.range diff.natAbs).map fun (j : Nat) =>
      if axis = 0 then (t0.1 + delta * (j : Int), t0.2)
      else (t0.1, t0.2 + delta * (j : Int))

/-- Tiles appended by one iteration of the waypoint-pair loop of
`HumanFollowPath.__init__`: cardinally adjacent pairs contribute just `t0`;
otherwise both axes are stepped, larger absolute difference first (the
source's `for axis in (0, 1) if abs(difference[0]) >= abs(difference[1])
else (1, 0)`, unrolled). -/
def pairExpansion (t0 t1 : Pos) : List Pos :=
  if findDifferenceAbs t0 t1 = [0, 1] then [t0]
  else if (t1.2 - t0.2).natAbs ≤ (t1.1 - t0.1).natAbs then
    axisSteps t0 0 (t1.1 - t0.1) ++ axisSteps t0 1 (t1.2 - t0.2)
  else
    axisSteps t0 1 (t1.2 - t0.2) ++ axisSteps t0 0 (t1.1 - t0.1)

/-- The tile sequence accumulated over all consecutive waypoint pairs
(`for i in xrange(len(path) - 1)`). -/
def expandPairs : List Pos → List Pos
  | t0 :: t1 :: rest => pairExpansion t0 t1 ++ expandPairs (t1 :: rest)
  | _ => []

/-- Translation of the route construction in `HumanFollowPath.__init__`:
every appended tile goes through `tile_to_pixel`; afterwards, if the last
pixel entry differs from the last (tile-coordinate!) waypoint, the last
waypoint's pixel is appended.  `none` models the `IndexError` raised by
`self._path[len(self._path) - 1]` when no tile was appended (paths of
length < 2). -/
def followPathRoute (path : List Pos) : Option (List Pos) :=
  let p := (expandPairs path).map tileToPixel
  match p.getLast?, path.getLast? with
  | none, _ => none
  | _, none => none
  | some lastPix, some lastTile =>
    if lastPix ≠ lastTile then some (p ++ [tileToPixel lastTile]) else some p

/-- Two positions are cardinally adjacent tiles: they differ by exactly one
on one axis and agree on the other. -/
def tileAdjacent (a b : Pos) : Prop :=
  (a.1 = b.1 ∧ (a.2 - b.2).natAbs = 1) ∨ (a.2 = b.2 ∧ (a.1 - b.1).natAbs = 1)

instance (a b : Pos) : Decidable (tileAdjacent a b) :=
  inferInstanceAs (Decidable ((a.1 = b.1 ∧ (a.2 - b.2).natAbs = 1) ∨
    (a.2 = b.2 ∧ (a.1 - b.1).natAbs = 1)))

/-- Two pixel positions are cardinally adjacent at tile scale: they differ
by exactly `TILE_SIZE = 32` on one axis and agree on the other. -/
def pixAdjacent (a b : Pos) : Prop :=
  (a.1 = b.1 ∧ (a.2 - b.2).natAbs = 32) ∨ (a.2 = b.2 ∧ (a.1 - b.1).natAbs = 32)

instance (a b : Pos) : Decidable (pixAdjacent a b) :=
  inferInstanceAs (Decidable ((a.1 = b.1 ∧ (a.2 - b.2).natAbs = 32) ∨
    (a.2 = b.2 ∧ (a.1 - b.1).natAbs = 32)))

/-- A waypoint step as produced by the route finder: the two tiles share
exactly one axis and differ on the other. -/
def colinearStep (a b : Pos) : Prop :=
  (a.1 = b.1 ∧ a.2 ≠ b.2) ∨ (a.2 = b.2 ∧ a.1 ≠ b.1)

instance (a b : Pos) : Decidable (colinearStep a b) :=
  inferInstanceAs (Decidable ((a.1 = b.1 ∧ a.2 ≠ b.2) ∨ (a.2 = b.2 ∧ a.1 ≠ b.1)))

/-- C9 counterexample: for the sparse input [(0,0), (2,1)] the constructed
route is [(0,0), (32,0), (0,0), (64,32)] (pixel coordinates): the axis-1
interpolation resets axis 0 back to t0's value, duplicating the start, and
the final fix-up appends the last waypoint's pixel, leaving consecutive
entries (0,0) and (64,32) that are not cardinally adjacent (they differ on
both axes, by two tiles and one tile). -/
theorem follow_path_route_not_adjacent :
    followPathRoute [((0 : Int), (0 : Int)), ((2 : Int), (1 : Int))] =
      some [(0, 0), (32, 0), (0, 0), (64, 32)] ∧
    ¬ List.Chain' pixAdjacent [(0, 0), (32, 0), (0, 0), (64, 32)] := by
  refine ⟨by decide, ?_⟩
  intro h
  rw [List.chain'_cons, List.chain'_cons, List.chain'_cons] at h
  exact absurd h.2.2.1 (by decide)

lemma ediv_natAbs_pos (d : Int) (hd : 0 < d) : d / (d.natAbs : Int) = 1 := by
  have h : (d.natAbs : Int) = d := by omega
  rw [h]
  exact Int.ediv_self (by omega)

lemma ediv_natAbs_neg (d : Int) (hd : d < 0) : d / (d.natAbs : Int) = -1 := by
  have h : (d.natAbs : Int) = -d := by omega
  rw [h, Int.ediv_neg, Int.ediv_self (by omega)]

lemma axisSteps_eq0 (t0 : Pos) (d : Int) (hd : d ≠ 0) :
    axisSteps t0 0 d =
      (List.range d.natAbs).map
        (fun (j : Nat) => (t0.1 + d / (d.natAbs : Int) * (j : Int), t0.2)) := by
  simp [axisSteps, if_neg hd]

lemma axisSteps_eq1 (t0 : Pos) (d : Int) (hd : d ≠ 0) :
    axisSteps t0 1 d =
      (List.range d.natAbs).map
        (fun (j : Nat) => (t0.1, t0.2 + d / (d.natAbs : Int) * (j : Int))) := by
  simp [axisSteps, if_neg hd]

lemma axisSteps0_spec (t0 : Pos) (d : Int) (hd : d ≠ 0) :
    (axisSteps t0 0 d).head? = some t0 ∧
    List.Chain' tileAdjacent (axisSteps t0 0 d) ∧
    ∃ x, (axisSteps t0 0 d).getLast? = some x ∧
      tileAdjacent x (t0.1 + d, t0.2) := by
  obtain ⟨m, hm⟩ : ∃ m, d.natAbs = m + 1 := ⟨d.natAbs - 1, by omega⟩
  have hδ : d / (d.natAbs : Int) = 1 ∨ d / (d.natAbs : Int) = -1 := by
    rcases hd.lt_or_lt with hneg | hpos
    · exact Or.inr (ediv_natAbs_neg d hneg)
    · exact Or.inl (ediv_natAbs_pos d hpos)
  have hsign : (0 < d → d / (d.natAbs : Int) = 1) ∧
      (d < 0 → d / (d.natAbs : Int) = -1) :=
    ⟨ediv_natAbs_pos d, ediv_natAbs_neg d⟩
  rw [axisSteps_eq0 t0 d hd]
  refine ⟨?_, ?_, ?_⟩
  · rw [List.head?_map, hm, List.range_succ_eq_map]
    simp
  · rw [List.chain'_map, hm]
    refine (List.chain'_range_succ _ m).mpr ?_
    intro j hj
    right
    refine ⟨rfl, ?_⟩
    rcases hδ with h1 | h1 <;> rw [hm] at h1 <;> rw [h1] <;> push_cast <;> omega
  · refine ⟨(t0.1 + d / (d.natAbs : Int) * (m : Int), t0.2), ?_, ?_⟩
    · rw [hm, show List.range (m + 1) = List.range m ++ [m] from
        List.range_succ m, List.map_append]
      rw [getLast?_append_right _ _ (by simp)]
      rfl
    · right
      refine ⟨rfl, ?_⟩
      rcases hd.lt_or_lt with hneg | hpos
      · rw [hsign.2 hneg]; omega
      · rw [hsign.1 hpos]; omega

lemma axisSteps1_spec (t0 : Pos) (d : Int) (hd : d ≠ 0) :
    (axisSteps t0 1 d).head? = some t0 ∧
    List.Chain' tileAdjacent (axisSteps t0 1 d) ∧
    ∃ x, (axisSteps t0 1 d).getLast? = some x ∧
      tileAdjacent x (t0.1, t0.2 + d) := by
  obtain ⟨m, hm⟩ : ∃ m, d.natAbs = m + 1 := ⟨d.natAbs - 1, by omega⟩
  have hδ : d / (d.natAbs : Int) = 1 ∨ d / (d.natAbs : Int) = -1 := by
    rcases hd.lt_or_lt with hneg | hpos
    · exact Or.inr (ediv_natAbs_neg d hneg)
    · exact Or.inl (ediv_natAbs_pos d hpos)
  have hsign : (0 < d → d / (d.natAbs : Int) = 1) ∧
      (d < 0 → d / (d.natAbs : Int) = -1) :=
    ⟨ediv_natAbs_pos d, ediv_natAbs_neg d⟩
  rw [axisSteps_eq1 t0 d hd]
  refine ⟨?_, ?_, ?_⟩
  · rw [List.head?_map, hm, List.range_succ_eq_map]
    simp
  · rw [List.chain'_map, hm]
    refine (List.chain'_range_succ _ m).mpr ?_
    intro j hj
    left
    refine ⟨rfl, ?_⟩
    rcases hδ with h1 | h1 <;> rw [hm] at h1 <;> rw [h1] <;> push_cast <;> omega
  · refine ⟨(t0.1, t0.2 + d / (d.natAbs : Int) * (m : Int)), ?_, ?_⟩
    · rw [hm, show List.range (m + 1) = List.range m ++ [m] from
        List.range_succ m, List.map_append]
      rw [getLast?_append_right _ _ (by simp)]
      rfl
    · left
      refine ⟨rfl, ?_⟩
      rcases hd.lt_or_lt with hneg | hpos
      · rw [hsign.2 hneg]; omega
      · rw [hsign.1 hpos]; omega

lemma pairExpansion_spec (t0 t1 : Pos) (h : colinearStep t0 t1) :
    (pairExpansion t0 t1).head? = some t0 ∧
    List.Chain' tileAdjacent (pairExpansion t0 t1) ∧
    ∃ x, (pairExpansion t0 t1).getLast? = some x ∧ tileAdjacent x t1 := by
  rcases h with ⟨hx, hy⟩ | ⟨hy, hx⟩
  · by_cases h1 : (t1.2 - t0.2).natAbs = 1
    · have hdx : (t0.1 - t1.1).natAbs = 0 := by omega
      have hdy : (t0.2 - t1.2).natAbs = 1 := by omega
      have hcond : findDifferenceAbs t0 t1 = [0, 1] := by
        simp [findDifferenceAbs, hdx, hdy]
      simp only [pairExpansion, if_pos hcond]
      exact ⟨rfl, List.chain'_singleton t0, t0, rfl, Or.inl ⟨hx, by omega⟩⟩
    · have hdx : (t0.1 - t1.1).natAbs = 0 := by omega
      have hcond : ¬ findDifferenceAbs t0 t1 = [0, 1] := by
        intro hc
        simp only [findDifferenceAbs] at hc
        split at hc <;>
          (injection hc with h2 hrest; injection hrest with h3 hr2; omega)
      have hd0 : t1.2 - t0.2 ≠ 0 := by omega
      have hc2 : ¬ ((t1.2 - t0.2).natAbs ≤ (t1.1 - t0.1).natAbs) := by
        have hz : (t1.1 - t0.1).natAbs = 0 := by omega
        omega
      have hz : t1.1 - t0.1 = 0 := by omega
      have hnil : axisSteps t0 0 0 = [] := by simp [axisSteps]
      simp only [pairExpansion]
      rw [if_neg hcond, if_neg hc2, hz, hnil, List.append_nil]
      obtain ⟨hh, hc, x, hl, ha⟩ := axisSteps1_spec t0 (t1.2 - t0.2) hd0
      refine ⟨hh, hc, x, hl, ?_⟩
      have he : (t0.1, t0.2 + (t1.2 - t0.2)) = t1 := by
        rw [Prod.ext_iff]
        exact ⟨hx, by omega⟩
      rw [he] at ha
      exact ha
  · by_cases h1 : (t1.1 - t0.1).natAbs = 1
    · have hdy : (t0.2 - t1.2).natAbs = 0 := by omega
      have hdx : (t0.1 - t1.1).natAbs = 1 := by omega
      have hcond : findDifferenceAbs t0 t1 = [0, 1] := by
        simp [findDifferenceAbs, hdx, hdy]
      simp only [pairExpansion, if_pos hcond]
      exact ⟨rfl, List.chain'_singleton t0, t0, rfl, Or.inr ⟨hy, by omega⟩⟩
    · have hdy : (t0.2 - t1.2).natAbs = 0 := by omega
      have hcond : ¬ findDifferenceAbs t0 t1 = [0, 1] := by
        intro hc
        simp only [findDifferenceAbs] at hc
        split at hc <;>
          (injection hc with h2 hrest; injection hrest with h3 hr2; omega)
      have hd0 : t1.1 - t0.1 ≠ 0 := by omega
      have hc2 : (t1.2 - t0.2).natAbs ≤ (t1.1 - t0.1).natAbs := by
        have hz : (t1.2 - t0.2).natAbs = 0 := by omega
        omega
      have hz : t1.2 - t0.2 = 0 := by omega
      have hnil : axisSteps t0 1 0 = [] := by simp [axisSteps]
      simp only [pairExpansion]
      rw [if_neg hcond, if_pos hc2, hz, hnil, List.append_nil]
      obtain ⟨hh, hc, x, hl, ha⟩ := axisSteps0_spec t0 (t1.1 - t0.1) hd0
      refine ⟨hh, hc, x, hl, ?_⟩
      have he : (t0.1 + (t1.1 - t0.1), t0.2) = t1 := by
        rw [Prod.ext_iff]
        exact ⟨by omega, hy⟩
      rw [he] at ha
      exact ha

lemma ne_nil_of_head?_eq_some {B : Type} (l : List B) (a : B)
    (h : l.head? = some a) : l ≠ [] := by
  intro hn
  rw [hn] at h
  exact Option.noConfusion h

lemma expandPairs_spec : ∀ (rest : List Pos) (t0 t1 : Pos),
    List.Chain' colinearStep (t0 :: t1 :: rest) →
    (expandPairs (t0 :: t1 :: rest)).head? = some t0 ∧
    List.Chain' tileAdjacent (expandPairs (t0 :: t1 :: rest)) ∧
    ∃ x, (expandPairs (t0 :: t1 :: rest)).getLast? = some x ∧
      tileAdjacent x ((t1 :: rest).getLast (List.cons_ne_nil t1 rest)) := by
  intro rest
  induction rest with
  | nil =>
    intro t0 t1 hch
    have h01 : colinearStep t0 t1 := (List.chain'_cons.mp hch).1
    obtain ⟨hh, hc, x, hl, ha⟩ := pairExpansion_spec t0 t1 h01
    have he : expandPairs [t0, t1] = pairExpansion t0 t1 := by
      simp [expandPairs]
    rw [he]
    exact ⟨hh, hc, x, hl, ha⟩
  | cons r0 rest2 ih =>
    intro t0 t1 hch
    rw [List.chain'_cons] at hch
    obtain ⟨h01, hch2⟩ := hch
    obtain ⟨hh1, hc1, x1, hl1, ha1⟩ := pairExpansion_spec t0 t1 h01
    obtain ⟨hh2, hc2, x2, hl2, ha2⟩ := ih t1 r0 hch2
    have he : expandPairs (t0 :: t1 :: r0 :: rest2) =
        pairExpansion t0 t1 ++ expandPairs (t1 :: r0 :: rest2) := rfl
    rw [he]
    have hne1 : pairExpansion t0 t1 ≠ [] := ne_nil_of_head?_eq_some _ _ hh1
    have hne2 : expandPairs (t1 :: r0 :: rest2) ≠ [] :=
      ne_nil_of_head?_eq_some _ _ hh2
    refine ⟨?_, ?_, ?_⟩
    · rw [head?_append_left _ _ hne1]
      exact hh1
    · rw [List.chain'_append]
      refine ⟨hc1, hc2, ?_⟩
      intro a ha' b hb'
      rw [hl1, Option.mem_def] at ha'
      rw [hh2, Option.mem_def] at hb'
      injection ha' with ha2'
      injection hb' with hb2'
      subst ha2'
      subst hb2'
      exact ha1
    · refine ⟨x2, ?_, ?_⟩
      · rw [getLast?_append_right _ _ hne2]
        exact hl2
      · have hgl : (t1 :: r0 :: rest2).getLast (List.cons_ne_nil t1 (r0 :: rest2)) =
            (r0 :: rest2).getLast (List.cons_ne_nil r0 rest2) :=
          List.getLast_cons (List.cons_ne_nil r0 rest2)
        rw [hgl]
        exact ha2

lemma tileAdjacent_pix (a b : Pos) (h : tileAdjacent a b) :
    pixAdjacent (tileToPixel a) (tileToPixel b) := by
  rcases h with ⟨h1, h2⟩ | ⟨h1, h2⟩
  · exact Or.inl ⟨by simp [tileToPixel]; omega, by simp [tileToPixel]; omega⟩
  · exact Or.inr ⟨by simp [tileToPixel]; omega, by simp [tileToPixel]; omega⟩

lemma tileToPixel_ne_endpoint (x t : Pos) (h : tileAdjacent x t) :
    tileToPixel x ≠ t := by
  intro he
  simp only [tileToPixel, Prod.ext_iff] at he
  rcases h with ⟨h1, h2⟩ | ⟨h1, h2⟩ <;> omega

/-- C9 amended: for every sparse input route of at least two waypoints whose
consecutive waypoints are distinct and share an axis (as the routes produced
by the route finder do), the constructed route is defined, starts at the
first waypoint's pixel, ends at the last waypoint's pixel, and every pair
of consecutive entries are cardinally adjacent tiles at pixel scale (they
differ by exactly TILE_SIZE = 32 on one axis and agree on the other). -/
theorem follow_path_route_dense (p0 p1 : Pos) (rest : List Pos)
    (hch : List.Chain' colinearStep (p0 :: p1 :: rest)) :
    ∃ r, followPathRoute (p0 :: p1 :: rest) = some r ∧
      r.head? = some (tileToPixel p0) ∧
      r.getLast? =
        some (tileToPixel ((p1 :: rest).getLast (List.cons_ne_nil p1 rest))) ∧
      List.Chain' pixAdjacent r := by
  obtain ⟨hh, hc, x, hl, ha⟩ := expandPairs_spec rest p0 p1 hch
  have hne : expandPairs (p0 :: p1 :: rest) ≠ [] :=
    ne_nil_of_head?_eq_some _ _ hh
  have hpl : ((expandPairs (p0 :: p1 :: rest)).map tileToPixel).getLast? =
      some (tileToPixel x) := by
    rw [List.getLast?_map, hl]
    rfl
  have hpathl : (p0 :: p1 :: rest).getLast? =
      some ((p1 :: rest).getLast (List.cons_ne_nil p1 rest)) := by
    rw [getLast?_cons_ne_nil p0 _ (List.cons_ne_nil p1 rest)]
    exact List.getLast?_eq_getLast _ _
  have hnmap : (expandPairs (p0 :: p1 :: rest)).map tileToPixel ≠ [] := by
    intro hmn
    exact hne (List.map_eq_nil.mp hmn)
  refine ⟨(expandPairs (p0 :: p1 :: rest)).map tileToPixel ++
    [tileToPixel ((p1 :: rest).getLast (List.cons_ne_nil p1 rest))],
    ?_, ?_, ?_, ?_⟩
  · simp only [followPathRoute]
    rw [hpl, hpathl]
    dsimp only
    rw [if_pos (tileToPixel_ne_endpoint x _ ha)]
  · rw [head?_append_left _ _ hnmap, List.head?_map, hh]
    rfl
  · rw [getLast?_append_right _ _ (by simp)]
    rfl
  · rw [List.chain'_append]
    refine ⟨?_, List.chain'_singleton _, ?_⟩
    · rw [List.chain'_map]
      exact List.Chain'.imp (fun a b hab => tileAdjacent_pix a b hab) hc
    · intro a ha' b hb'
      rw [hpl, Option.mem_def] at ha'
      rw [Option.mem_def] at hb'
      injection ha' with ha2'
      injection hb' with hb2'
      subst ha2'
      subst hb2'
      exact tileAdjacent_pix x _ ha

/-- Witness for follow_path_route_dense on the waypoint route
[(0,0), (3,0), (3,2)]. -/
theorem follow_path_route_dense_witness :
    ∃ r, followPathRoute
        [((0 : Int), (0 : Int)), ((3 : Int), (0 : Int)),
          ((3 : Int), (2 : Int))] = some r ∧
      r.head? = some (tileToPixel (0, 0)) ∧
      r.getLast? =
        some (tileToPixel
          (((((3 : Int), (0 : Int)) : Pos) ::
            [(((3 : Int), (2 : Int)) : Pos)]).getLast
              (List.cons_ne_nil _ _))) ∧
      List.Chain' pixAdjacent r :=
  follow_path_route_dense (0, 0) (3, 0) [(3, 2)]
    (List.chain'_cons.mpr ⟨by decide,
      List.chain'_cons.mpr ⟨by decide, List.chain'_singleton _⟩⟩)

end CitySim
